import Mathlib

/-!
Verification of the metadata storage engine in `src/calibre/db/backend.py`.

The Python source is shallowly embedded: pure fragments become Lean
functions, database/filesystem effects become explicit state passing with
an operation trace, and fallible code returns `Except`/`Option`.  Machine
independent details (Python 2 `dict` iteration order, filesystem existence
checks, copy failures caused by the environment) are passed in as explicit
inputs so each theorem quantifies over them.

External collaborators that are part of the calibre repository but are not
under `src/` (`ascii_filename` from `calibre.utils.filenames`, `icu_lower`
from `calibre.utils.icu`, `SPOOL_SIZE` from `calibre.db`, `to_json` and
`from_json` from `calibre.utils.config`) are modelled from the spec where
needed; each such definition carries a doc comment saying so.
-/

/-! ## Path name construction (`DB.construct_path_name`, `DB.construct_file_name`)

`backend.py` lines 830-856.  The sanitizer `ascii_filename` is a consumed
capability (not under `src/`), so it is a parameter `af`; the localized
Unknown token `_('Unknown')` is likewise a parameter. -/

/-- Python exceptions the embedded code can raise: the IndexError raised
by `author[-1]` on an empty string, and the IOError/OSError raised by a
failing file copy. -/
inductive PyErr where
  | indexError : PyErr
  | ioError : PyErr
deriving DecidableEq

/-- Embedding of the loop `while author[-1] in (' ', '.'): author = author[:-1]`
from `DB.construct_path_name` (backend.py line 838).  Python evaluates
`author[-1]` before testing membership, so an empty string raises
IndexError. -/
def stripTDSA : Nat → List Char → Except PyErr (List Char)
  | 0, s => .ok s
  | fuel + 1, s =>
      match s.getLast? with
      | none => .error .indexError
      | some c =>
          if c = ' ' ∨ c = '.' then stripTDSA fuel s.dropLast else .ok s

/-- The strip loop runs at most `s.length` times before the list is empty
and the subscript raises, so `s.length + 1` fuel is exact. -/
def stripTrailingDotSpace (s : List Char) : Except PyErr (List Char) :=
  stripTDSA (s.length + 1) s

/-- Embedding of the loop `while name.endswith('.'): name = name[:-1]`
from `DB.construct_file_name` (backend.py line 854).  `''.endswith('.')`
is `False`, so this loop is total. -/
def stripTDA : Nat → List Char → List Char
  | 0, s => s
  | fuel + 1, s =>
      match s.getLast? with
      | none => s
      | some c => if c = '.' then stripTDA fuel s.dropLast else s

/-- The strip loop runs at most `s.length` times. -/
def stripTrailingDots (s : List Char) : List Char := stripTDA (s.length + 1) s

/-- `DB.PATH_LIMIT` (backend.py line 307): `40 if iswindows else 100`. -/
def PATH_LIMIT (iswindows : Bool) : Nat := if iswindows then 40 else 100

/-- Embedding of `DB.construct_path_name` (backend.py lines 830-843).

`af` models `ascii_filename` (calibre.utils.filenames, not under `src/`;
the spec describes it only as an ASCII-filename sanitizer), `unknown`
models the localized token `_('Unknown')`.  The byte/unicode `decode`
calls are elided: `af` is assumed to produce the already decoded text.
The trailing dot/space strip can raise IndexError (see
`stripTrailingDotSpace`); the `if not author` fallback of line 840 runs
only when the loop exits normally. -/
def construct_path_name (af : List Char → List Char) (unknown : List Char)
    (iswindows : Bool) (book_id : Nat) (title author : List Char) :
    Except PyErr (List Char) := do
  let a := (af author).take (PATH_LIMIT iswindows)
  let t := (af title).take (PATH_LIMIT iswindows)
  let a ← stripTrailingDotSpace a
  let a := if a = [] then af unknown else a
  pure (a ++ '/' :: t ++ ' ' :: '(' :: (toString book_id).toList ++ [')'])

/-- Embedding of `DB.construct_file_name` (backend.py lines 845-856):
`title + ' - ' + author` with trailing periods stripped.  Total. -/
def construct_file_name (af : List Char → List Char) (iswindows : Bool)
    (book_id : Nat) (title author : List Char) : List Char :=
  let a := (af author).take (PATH_LIMIT iswindows)
  let t := (af title).take (PATH_LIMIT iswindows)
  stripTrailingDots (t ++ [' ', '-', ' '] ++ a)

/-! ## `DB.normpath` and `DB.rmtree` (backend.py lines 820-828)

Paths are lists of characters.  `os.path.abspath`/`os.path.realpath`
are modelled as the identity (inputs are taken to be absolute symlink-free
paths); `os.path.normcase(path).lower()` on a case-insensitive system is
modelled as character-wise lowercasing. -/

/-- Embedding of `DB.normpath`: on a case-insensitive filesystem the path
is lowercased, otherwise returned unchanged. -/
def normpath (caseSensitive : Bool) (p : List Char) : List Char :=
  if caseSensitive then p else p.map Char.toLower

/-- Embedding of the guard of `DB.rmtree`
(`if not self.normpath(self.library_path).startswith(self.normpath(path))`):
returns `true` exactly when `delete_tree(path)` is invoked. -/
def rmtreeDeletes (caseSensitive : Bool) (library path : List Char) : Bool :=
  ¬ (normpath caseSensitive path).isPrefixOf (normpath caseSensitive library)

/-! ## `DB.initialize_tables` slot assignment (backend.py lines 693-776)

Only the `FIELD_MAP` slot assignment is embedded; the `tables` dictionary
built alongside it stores no slot information.  `FIELD_MAP` keys are the
built-in field names (strings), the custom column ids (ints) and the
strings `str(num) + '_index'` for series custom columns; the three key
shapes are the three constructors of `FKey`.

`self.custom_column_label_map.iteritems()` iterates a Python 2 dict whose
order depends on string hashing and insertion history (it is *not* sorted
by label; contrast `initialize_custom_columns` line 677 which sorts
explicitly).  The embedding therefore takes the custom columns as a list
in iteration order. -/

inductive FKey where
  | name (s : String)
  | num (n : Nat)
  | numIndex (n : Nat)
deriving DecidableEq

/-- The per-custom-column record fields used by `initialize_tables`. -/
structure CustomColumn where
  label : String
  num : Nat
  datatype : String
deriving DecidableEq

/-- The constant block of `self.FIELD_MAP` (backend.py lines 721-727). -/
def builtinFieldMap : List (FKey × Nat) :=
  [(.name "id", 0), (.name "title", 1), (.name "authors", 2),
   (.name "timestamp", 3), (.name "size", 4), (.name "rating", 5),
   (.name "tags", 6), (.name "comments", 7), (.name "series", 8),
   (.name "publisher", 9), (.name "series_index", 10), (.name "sort", 11),
   (.name "author_sort", 12), (.name "formats", 13), (.name "path", 14),
   (.name "pubdate", 15), (.name "uuid", 16), (.name "cover", 17),
   (.name "au_map", 18), (.name "last_modified", 19),
   (.name "identifiers", 20), (.name "languages", 21)]

/-- `base = max(self.FIELD_MAP.itervalues())` (backend.py line 732). -/
def builtinBase : Nat := (builtinFieldMap.map Prod.snd).foldl Nat.max 0

/-- The custom-column loop of `initialize_tables` (backend.py lines
734-747): each column gets `base = base + 1`; a series column additionally
assigns `base = base + 1` to `str(num) + '_index'`.  Returns the assigned
entries together with the final value of `base`. -/
def assignCustomSlots (base : Nat) : List CustomColumn → List (FKey × Nat)
  | [] => []
  | c :: rest =>
      if c.datatype = "series" then
        (.num c.num, base + 1) :: (.numIndex c.num, base + 2) ::
          assignCustomSlots (base + 2) rest
      else (.num c.num, base + 1) :: assignCustomSlots (base + 1) rest

/-- The value of the running `base` after the custom-column loop, used
for the trailing `ondevice`/`marked`/`series_sort` assignments. -/
def customBase (base : Nat) : List CustomColumn → Nat
  | [] => base
  | c :: rest =>
      if c.datatype = "series" then customBase (base + 2) rest
      else customBase (base + 1) rest

/-- Embedding of the `FIELD_MAP` construction of `DB.initialize_tables`:
the constant built-in block, then the custom columns in dict-iteration
order, then `ondevice`, `marked` and `series_sort` (backend.py lines
769-774). -/
def initialize_tables (cols : List CustomColumn) : List (FKey × Nat) :=
  let b := customBase builtinBase cols
  builtinFieldMap ++ assignCustomSlots builtinBase cols ++
    [(.name "ondevice", b + 1), (.name "marked", b + 2),
     (.name "series_sort", b + 3)]

/-- Dictionary lookup in an association-list model of `FIELD_MAP`
(first binding wins; all keys inserted by `initialize_tables` are
distinct when the column ids are distinct). -/
def fmLookup (m : List (FKey × Nat)) (k : FKey) : Option Nat :=
  (m.find? (fun p => p.1 = k)).map Prod.snd

/-! ## Python dict operations

Python dicts are modelled as association lists in iteration order with
unique keys; lookup takes the first binding, assignment replaces in place
or appends, deletion filters the binding out. -/

/-- Dict lookup `m[k]` (as `Option`). -/
def dictLookup {α : Type} (m : List (List Char × α)) (k : List Char) : Option α :=
  (m.find? (fun p => p.1 = k)).map Prod.snd

/-- Dict assignment `m[k] = v`: replace an existing binding, else append. -/
def dictUpsert {α : Type} (m : List (List Char × α)) (k : List Char) (v : α) :
    List (List Char × α) :=
  match m with
  | [] => [(k, v)]
  | (k', v') :: rest =>
      if k' = k then (k, v) :: rest else (k', v') :: dictUpsert rest k v

/-- Dict deletion `del m[k]`. -/
def dictDel {α : Type} (m : List (List Char × α)) (k : List Char) :
    List (List Char × α) :=
  match m with
  | [] => []
  | (k', v') :: rest => if k' = k then dictDel rest k else (k', v') :: dictDel rest k

/-! ## Decimal digits

Shared embedding of Python's decimal rendering of a nonnegative integer
(`unicode(n)` / `json.dumps` integer output) and its re-parsing. -/

/-- The character of a single decimal digit. -/
def digitCh (m : Nat) : Char := Char.ofNat (48 + m)

/-- Fueled digit expansion; `n` itself is always enough fuel since the
argument at least halves each step. -/
def natCharsA : Nat → Nat → List Char
  | 0, n => [digitCh n]
  | fuel + 1, n =>
      if n < 10 then [digitCh n] else natCharsA fuel (n / 10) ++ [digitCh (n % 10)]

/-- Decimal digit characters of `n`, most significant first; the embedding
of Python's `unicode(n)` for `n ≥ 0`. -/
def natChars (n : Nat) : List Char := natCharsA n n

/-- Decimal digit test used by the number scanner. -/
def isDigitCh (c : Char) : Bool := 48 ≤ c.toNat ∧ c.toNat ≤ 57

/-- Numeric value of a scanned digit string. -/
def digitsVal (ds : List Char) : Nat :=
  ds.foldl (fun a c => a * 10 + (c.toNat - 48)) 0

/-! ## Case-collision repair of `user_categories`
(`DB.initialize_prefs`, backend.py lines 501-522)

`user_cats` is the migrated `user_categories` preference: a Python dict
from category name to a value (the value is opaque here, modelled as a
`Nat` tag).  The embedding takes the dict as an association list in
iteration order.  `catmap` groups the names by their lowercased form,
groups in first-occurrence order, each group in iteration order -
exactly what the `for uc in user_cats` loop builds. -/

/-- Modelled from the spec: `icu_lower` (calibre.utils.icu, not under
`src/`) is the locale-aware lowercaser used for the case-insensitive
comparison; modelled as character-wise lowercasing. -/
def icu_lower (s : List Char) : List Char := s.map Char.toLower

/-- `catmap[ucl].append(uc)` with first-occurrence key order. -/
def catmapAdd (m : List (List Char × List (List Char))) (ucl uc : List Char) :
    List (List Char × List (List Char)) :=
  match m with
  | [] => [(ucl, [uc])]
  | (k, g) :: rest =>
      if k = ucl then (k, g ++ [uc]) :: rest else (k, g) :: catmapAdd rest ucl uc

/-- The `catmap` built by backend.py lines 503-508. -/
def buildCatmap (keys : List (List Char)) : List (List Char × List (List Char)) :=
  keys.foldl (fun m uc => catmapAdd m (icu_lower uc) uc) []

/-- The suffix search loop `while icu_lower(cat + unicode(suffix)) in
catmap: suffix += 1` (backend.py lines 514-516), unrolled with explicit
fuel.  The loop always terminates within `keys.length + 1` probes: the
lowercased candidates for distinct suffixes are pairwise distinct, so at
most `keys.length` of them can collide with `catmap`'s keys. -/
def findSuffixAux (keys : List (List Char)) (cat : List Char) :
    Nat → Nat → Nat
  | 0, k => k
  | fuel + 1, k =>
      if keys.contains (icu_lower (cat ++ natChars k)) then
        findSuffixAux keys cat fuel (k + 1)
      else k

/-- The suffix chosen for the first member of a colliding group. -/
def findSuffix (keys : List (List Char)) (cat : List Char) : Nat :=
  findSuffixAux keys cat (keys.length + 1) 1

/-- The body of the `for uc in catmap` loop (backend.py lines 510-520):
a group with more than one member has its *first* member `catmap[uc][0]`
renamed to `cat + unicode(suffix)` (carrying its old value via
`user_cats[cat + unicode(suffix)] = user_cats[cat]`), the old binding
deleted, and `cats_changed` set. -/
def repairStep (cmKeys : List (List Char))
    (acc : List (List Char × Nat) × Bool)
    (g : List Char × List (List Char)) : List (List Char × Nat) × Bool :=
  if 1 < g.2.length then
    let cat := g.2.headI
    let suffix := findSuffix cmKeys cat
    let v := (dictLookup acc.1 cat).getD 0
    (dictDel (dictUpsert acc.1 (cat ++ natChars suffix) v) cat, true)
  else acc

/-- The renamed-to name of a colliding group's first member. -/
def renameTarget (cmKeys : List (List Char)) (g : List Char × List (List Char)) :
    List Char :=
  g.2.headI ++ natChars (findSuffix cmKeys g.2.headI)

/-- Embedding of the case-collision repair of `DB.initialize_prefs`
(backend.py lines 501-522): build `catmap`, run the rename loop over its
groups, and return the resulting dict together with the `cats_changed`
flag (`true` exactly when `prefs.set('user_categories', ...)` persists
the update). -/
def repair_user_categories (ucs : List (List Char × Nat)) :
    List (List Char × Nat) × Bool :=
  let catmap := buildCatmap (ucs.map Prod.fst)
  catmap.foldl (repairStep (catmap.map Prod.fst)) (ucs, false)

/-- The repair behaviour claimed by the spec: "rename all but the first
colliding name in each collision group", i.e. the first member of every
colliding group keeps its binding unchanged.  Written from the spec's
words, to be compared against `repair_user_categories`. -/
def firstOfGroupKept (ucs : List (List Char × Nat)) : Prop :=
  ∀ g ∈ buildCatmap (ucs.map Prod.fst),
    1 < g.2.length →
      dictLookup (repair_user_categories ucs).1 g.2.headI = dictLookup ucs g.2.headI

instance (ucs : List (List Char × Nat)) : Decidable (firstOfGroupKept ucs) :=
  List.decidableBAll _ _

/-! ## JSON values, `DBPrefs.to_raw` and `DBPrefs.raw_to_object`
(backend.py lines 79-85)

`to_raw` is `json.dumps(val, indent=2, default=to_json)` and
`raw_to_object` is `json.loads(raw, object_hook=from_json)` (Python 2.7
`json` with `ensure_ascii`).  `JVal` is the type of JSON-representable
preference values; numbers are modelled as integers (IEEE reals are
outside the shallow embedding).  Modelled from the spec: `to_json` /
`from_json` (calibre.utils.config, not under `src/`) extend JSON to
non-JSON-native Python objects; per the spec they are invisible on plain
JSON data, so the hook is modelled as the identity.

The printer mirrors Python 2.7 `json.dumps` with `indent=2`: every
container item on its own line, item separator `', '` followed by the
newline (the Python 2 trailing-space quirk), key separator `': '`,
`ensure_ascii` escaping of everything outside printable ASCII, with
surrogate pairs above the BMP.  The parser mirrors the `json.loads`
scanner on the grammar fragment `JVal` covers (no reals). -/

inductive JVal where
  | null
  | bool (b : Bool)
  | num (n : Int)
  | str (s : List Char)
  | arr (xs : List JVal)
  | obj (kvs : List (List Char × JVal))

/-- Lower-case hex digit character. -/
def hexDig (m : Nat) : Char :=
  if m < 10 then Char.ofNat (48 + m) else Char.ofNat (87 + m)

/-- `'\u%04x'`-style four hex digits. -/
def hex4 (n : Nat) : List Char :=
  [hexDig (n / 4096 % 16), hexDig (n / 256 % 16), hexDig (n / 16 % 16),
   hexDig (n % 16)]

/-- Per-character escaping of `json.encoder.py_encode_basestring_ascii`:
backslash and quote escapes, the five short escapes, `\uXXXX` for other
characters outside printable ASCII, surrogate pairs beyond the BMP. -/
def escChar (c : Char) : List Char :=
  if c = '\\' then ['\\', '\\']
  else if c = '"' then ['\\', '"']
  else if c = Char.ofNat 8 then ['\\', 'b']
  else if c = Char.ofNat 12 then ['\\', 'f']
  else if c = '\n' then ['\\', 'n']
  else if c = Char.ofNat 13 then ['\\', 'r']
  else if c = Char.ofNat 9 then ['\\', 't']
  else if 32 ≤ c.toNat ∧ c.toNat ≤ 126 then [c]
  else if c.toNat < 65536 then '\\' :: 'u' :: hex4 c.toNat
  else
    let m := c.toNat - 65536
    '\\' :: 'u' :: hex4 (55296 + m / 1024) ++ '\\' :: 'u' :: hex4 (56320 + m % 1024)

/-- Escaped body of a JSON string literal. -/
def ppStrBody : List Char → List Char
  | [] => []
  | c :: cs => escChar c ++ ppStrBody cs

/-- `json.dumps` integer output. -/
def ppInt (n : Int) : List Char :=
  if n < 0 then '-' :: natChars n.natAbs else natChars n.natAbs

/-- Indentation prefix at nesting level `lvl` for `indent=2`. -/
def jIndent (lvl : Nat) : List Char := List.replicate (2 * lvl) ' '

mutual

/-- `json.dumps(v, indent=2)` at nesting level `lvl`. -/
def ppVal (lvl : Nat) : JVal → List Char
  | .obj (kv :: kvs) =>
      Char.ofNat 123 :: '\n' :: ppObjItems (lvl + 1) kv kvs ++
        '\n' :: jIndent lvl ++ [Char.ofNat 125]
  | .obj [] => [Char.ofNat 123, Char.ofNat 125]
  | .arr (x :: xs) =>
      '[' :: '\n' :: ppArrItems (lvl + 1) x xs ++ '\n' :: jIndent lvl ++ [']']
  | .arr [] => ['[', ']']
  | .str s => '"' :: ppStrBody s ++ ['"']
  | .num n => ppInt n
  | .bool false => ['f', 'a', 'l', 's', 'e']
  | .bool true => ['t', 'r', 'u', 'e']
  | .null => ['n', 'u', 'l', 'l']
termination_by v => sizeOf v

/-- Indented, `', '`-plus-newline separated array items. -/
def ppArrItems (lvl : Nat) : JVal → List JVal → List Char
  | x, [] => jIndent lvl ++ ppVal lvl x
  | x, y :: ys =>
      jIndent lvl ++ ppVal lvl x ++ ',' :: ' ' :: '\n' :: ppArrItems lvl y ys
termination_by x xs => sizeOf x + sizeOf xs

/-- Indented `"key": value` object items. -/
def ppObjItems (lvl : Nat) :
    (List Char × JVal) → List (List Char × JVal) → List Char
  | (k, v), [] =>
      jIndent lvl ++ '"' :: ppStrBody k ++ '"' :: ':' :: ' ' :: ppVal lvl v
  | (k, v), kv :: kvs =>
      jIndent lvl ++ '"' :: ppStrBody k ++ '"' :: ':' :: ' ' :: ppVal lvl v ++
        ',' :: ' ' :: '\n' :: ppObjItems lvl kv kvs
termination_by kv kvs => sizeOf kv + sizeOf kvs

end

/-- JSON whitespace accepted by the `json.loads` scanner. -/
def isWsCh (c : Char) : Bool := c = ' ' ∨ c = '\t' ∨ c = '\n' ∨ c = '\r'

/-- Skip scanner whitespace. -/
def skipWs (s : List Char) : List Char := s.dropWhile isWsCh

/-- Hex digit predicate of `\uXXXX` escapes (both cases accepted). -/
def isHexCh (c : Char) : Bool :=
  (48 ≤ c.toNat ∧ c.toNat ≤ 57) ∨ (97 ≤ c.toNat ∧ c.toNat ≤ 102) ∨
    (65 ≤ c.toNat ∧ c.toNat ≤ 70)

/-- Hex digit value. -/
def hexVal (c : Char) : Nat :=
  if 48 ≤ c.toNat ∧ c.toNat ≤ 57 then c.toNat - 48
  else if 97 ≤ c.toNat ∧ c.toNat ≤ 102 then c.toNat - 87
  else c.toNat - 55

/-- `_decode_uXXXX`: four hex digits. -/
def parseHex4 : List Char → Option (Nat × List Char)
  | a :: b :: c :: d :: r =>
      if isHexCh a ∧ isHexCh b ∧ isHexCh c ∧ isHexCh d then
        some (((hexVal a * 16 + hexVal b) * 16 + hexVal c) * 16 + hexVal d, r)
      else none
  | _ => none

/-- The `json.loads` string scanner (after the opening quote): plain
characters up to the closing quote, backslash escapes, `\uXXXX` with
surrogate-pair recombination exactly as in `json/decoder.py`.  `fuel`
bounds the number of scanned characters. -/
def parseStr : Nat → List Char → Option (List Char × List Char)
  | 0, _ => none
  | _ + 1, [] => none
  | fuel + 1, c :: r =>
      if c = '"' then some ([], r)
      else if c = '\\' then
        match r with
        | [] => none
        | e :: r1 =>
            if e = '"' then (parseStr fuel r1).map (fun p => ('"' :: p.1, p.2))
            else if e = '\\' then
              (parseStr fuel r1).map (fun p => ('\\' :: p.1, p.2))
            else if e = '/' then (parseStr fuel r1).map (fun p => ('/' :: p.1, p.2))
            else if e = 'b' then
              (parseStr fuel r1).map (fun p => (Char.ofNat 8 :: p.1, p.2))
            else if e = 'f' then
              (parseStr fuel r1).map (fun p => (Char.ofNat 12 :: p.1, p.2))
            else if e = 'n' then (parseStr fuel r1).map (fun p => ('\n' :: p.1, p.2))
            else if e = 'r' then
              (parseStr fuel r1).map (fun p => (Char.ofNat 13 :: p.1, p.2))
            else if e = 't' then
              (parseStr fuel r1).map (fun p => (Char.ofNat 9 :: p.1, p.2))
            else if e = 'u' then
              match parseHex4 r1 with
              | none => none
              | some (n, r2) =>
                  if 55296 ≤ n ∧ n < 56320 then
                    match r2 with
                    | b1 :: b2 :: r3 =>
                        if b1 = '\\' ∧ b2 = 'u' then
                          match parseHex4 r3 with
                          | none => none
                          | some (m, r4) =>
                              if 56320 ≤ m ∧ m < 57344 then
                                (parseStr fuel r4).map (fun p =>
                                  (Char.ofNat
                                      (65536 + (n - 55296) * 1024 + (m - 56320)) ::
                                    p.1, p.2))
                              else
                                (parseStr fuel r2).map (fun p =>
                                  (Char.ofNat n :: p.1, p.2))
                        else (parseStr fuel r2).map (fun p => (Char.ofNat n :: p.1, p.2))
                    | _ => (parseStr fuel r2).map (fun p => (Char.ofNat n :: p.1, p.2))
                  else (parseStr fuel r2).map (fun p => (Char.ofNat n :: p.1, p.2))
            else none
      else (parseStr fuel r).map (fun p => (c :: p.1, p.2))

/-- The `json.loads` number scanner restricted to the integer grammar
(`JVal` has no reals): optional minus, then a nonempty digit run. -/
def parseNum (s : List Char) : Option (JVal × List Char) :=
  let neg : Bool := headDash s
  let s1 := if neg then s.tail else s
  let ds := s1.takeWhile isDigitCh
  let rest := s1.dropWhile isDigitCh
  if ds = [] then none
  else some (.num (if neg then -(digitsVal ds : Int) else (digitsVal ds : Int)), rest)
where
  headDash : List Char → Bool
    | c :: _ => c = '-'
    | [] => false

mutual

/-- The `json.loads` value scanner: skip whitespace, dispatch on the first
character.  `fuel` bounds the container nesting depth. -/
def parseVal : Nat → List Char → Option (JVal × List Char)
  | 0, _ => none
  | fuel + 1, s =>
      match skipWs s with
      | [] => none
      | c :: r =>
          if c = 'n' then
            match r with
            | 'u' :: 'l' :: 'l' :: r' => some (.null, r')
            | _ => none
          else if c = 't' then
            match r with
            | 'r' :: 'u' :: 'e' :: r' => some (.bool true, r')
            | _ => none
          else if c = 'f' then
            match r with
            | 'a' :: 'l' :: 's' :: 'e' :: r' => some (.bool false, r')
            | _ => none
          else if c = '"' then
            (parseStr (r.length + 1) r).map (fun p => (.str p.1, p.2))
          else if c = '[' then
            match skipWs r with
            | ']' :: r' => some (.arr [], r')
            | _ => (parseArrItems fuel r).map (fun p => (.arr p.1, p.2))
          else if c = Char.ofNat 123 then
            match skipWs r with
            | c2 :: r2 =>
                if c2 = Char.ofNat 125 then some (.obj [], r2)
                else (parseObjItems fuel r).map (fun p => (.obj p.1, p.2))
            | [] => none
          else parseNum (c :: r)

/-- Comma-separated array items up to `]`. -/
def parseArrItems : Nat → List Char → Option (List JVal × List Char)
  | 0, _ => none
  | fuel + 1, s => do
      let (v, r) ← parseVal fuel s
      match skipWs r with
      | ',' :: r' => do
          let (vs, r2) ← parseArrItems fuel r'
          pure (v :: vs, r2)
      | ']' :: r' => pure ([v], r')
      | _ => none

/-- Comma-separated `"key": value` object items up to the closing brace. -/
def parseObjItems : Nat → List Char → Option (List (List Char × JVal) × List Char)
  | 0, _ => none
  | fuel + 1, s =>
      match skipWs s with
      | c :: r =>
          if c = '"' then do
            let (k, r1) ← parseStr (r.length + 1) r
            match skipWs r1 with
            | ':' :: r2 => do
                let (v, r3) ← parseVal fuel r2
                match skipWs r3 with
                | c4 :: r4 =>
                    if c4 = ',' then do
                      let (kvs, r5) ← parseObjItems fuel r4
                      pure ((k, v) :: kvs, r5)
                    else if c4 = Char.ofNat 125 then pure ([(k, v)], r4)
                    else none
                | [] => none
            | _ => none
          else none
      | [] => none

end

/-- `DBPrefs.to_raw` (backend.py line 84): `json.dumps(val, indent=2,
default=to_json)`. -/
def to_raw (v : JVal) : List Char := ppVal 0 v

/-- `DBPrefs.raw_to_object` (backend.py line 79): `json.loads(raw,
object_hook=from_json)`; the document must parse with only trailing
whitespace left. -/
def raw_to_object (raw : List Char) : Option JVal :=
  match parseVal (raw.length + 1) raw with
  | some (v, rest) => if skipWs rest = [] then some v else none
  | none => none

/-- `some s` is below `some s'`; trivially true when either slot is
unassigned. -/
def slotBelow : Option Nat → Option Nat → Bool
  | some s, some s' => s < s'
  | _, _ => true

/-- Lexicographic (code-point) order on labels, Python's `unicode <`. -/
def charListLt : List Char → List Char → Bool
  | [], [] => false
  | [], _ :: _ => true
  | _ :: _, [] => false
  | a :: as, b :: bs => if a < b then true else if b < a then false else charListLt as bs

/-- The slot-order property claimed by the spec sentence "custom fields
receive slots in ascending label-sorted order": whenever one custom
column's label sorts before another's, its slot is smaller.  Written from
the spec's words, to be compared against `initialize_tables`. -/
def labelSortedSlots (cols : List CustomColumn) : Prop :=
  ∀ c ∈ cols, ∀ c' ∈ cols,
    charListLt c.label.toList c'.label.toList = true →
      slotBelow (fmLookup (initialize_tables cols) (.num c.num))
        (fmLookup (initialize_tables cols) (.num c'.num)) = true

instance (cols : List CustomColumn) : Decidable (labelSortedSlots cols) := by
  unfold labelSortedSlots
  infer_instance

/-! ## `DBPrefs` state (backend.py lines 62-109)

The preference store has two components: the `preferences` table (key to
serialized text) and the in-memory mirror (the dict superclass).  A
mutation through `__setitem__` performs, in order: serialize
(`raw = self.to_raw(val)`), persist (`INSERT OR REPLACE`), mirror update
(`dict.__setitem__`).  `SetOutcome` says how far the call got: the
statement may raise, or the process may crash between the persist and the
mirror update; `completed` is the normal return. -/

structure PrefsState where
  table : List (List Char × List Char)
  mirror : List (List Char × JVal)

inductive SetOutcome where
  | completed
  | execRaises
  | crashAfterExec
deriving DecidableEq

/-- Embedding of `DBPrefs.__setitem__` (backend.py lines 100-106), which
`DBPrefs.set` (line 108) forwards to: if `disable_setting` is set, return
immediately; otherwise serialize, persist into the `preferences` table,
then update the dict mirror.  The returned flag is `true` when the call
returned normally. -/
def dbprefs_setitem (disable : Bool) (o : SetOutcome) (st : PrefsState)
    (k : List Char) (v : JVal) : PrefsState × Bool :=
  if disable then (st, true)
  else
    match o with
    | .execRaises => (st, false)
    | .crashAfterExec =>
        ({ table := dictUpsert st.table k (to_raw v), mirror := st.mirror }, false)
    | .completed =>
        ({ table := dictUpsert st.table k (to_raw v),
           mirror := dictUpsert st.mirror k v }, true)

/-- `dict.get` on the mirror, as used by `DBPrefs.get`. -/
def dbprefs_get (st : PrefsState) (k : List Char) : Option JVal :=
  dictLookup st.mirror k

/-- Embedding of the load loop of `DBPrefs.__init__` (backend.py lines
66-77): re-open the library and rebuild the mirror from the persisted
table with `raw_to_object`, skipping rows that fail to parse. -/
def dbprefs_restart (table : List (List Char × List Char)) : PrefsState :=
  { table := table,
    mirror := table.filterMap (fun p => (raw_to_object p.2).map (fun v => (p.1, v))) }

/-! ## SHA-256 and `DB.format_hash` (backend.py lines 917-942)

`hashlib.sha256` is the Python standard library; its documented contract
is that interleaved `update` calls hash the concatenation of all supplied
byte strings.  The hash itself is implemented below (FIPS 180-4) over
byte lists, with 32-bit words as `Nat` reduced mod `2^32`. -/

/-- Truncate to a 32-bit word. -/
def w32 (n : Nat) : Nat := n % 4294967296

/-- 32-bit rotate right (`x` must already be a 32-bit word). -/
def rotr32 (x k : Nat) : Nat := w32 (x / 2 ^ k + x * 2 ^ (32 - k))

/-- 32-bit complement. -/
def not32 (x : Nat) : Nat := 4294967295 - x

def sigma0 (x : Nat) : Nat := rotr32 x 7 ^^^ rotr32 x 18 ^^^ x / 2 ^ 3

def sigma1 (x : Nat) : Nat := rotr32 x 17 ^^^ rotr32 x 19 ^^^ x / 2 ^ 10

def bigSigma0 (x : Nat) : Nat := rotr32 x 2 ^^^ rotr32 x 13 ^^^ rotr32 x 22

def bigSigma1 (x : Nat) : Nat := rotr32 x 6 ^^^ rotr32 x 11 ^^^ rotr32 x 25

/-- The 64 SHA-256 round constants. -/
def shaK : List Nat :=
  [1116352408, 1899447441, 3049323471, 3921009573, 961987163, 1508970993,
   2453635748, 2870763221, 3624381080, 310598401, 607225278, 1426881987,
   1925078388, 2162078206, 2614888103, 3248222580, 3835390401, 4022224774,
   264347078, 604807628, 770255983, 1249150122, 1555081692, 1996064986,
   2554220882, 2821834349, 2952996808, 3210313671, 3336571891, 3584528711,
   113926993, 338241895, 666307205, 773529912, 1294757372, 1396182291,
   1695183700, 1986661051, 2177026350, 2456956037, 2730485921, 2820302411,
   3259730800, 3345764771, 3516065817, 3600352804, 4094571909, 275423344,
   430227734, 506948616, 659060556, 883997877, 958139571, 1322822218,
   1537002063, 1747873779, 1955562222, 2024104815, 2227730452, 2361852424,
   2428436474, 2756734187, 3204031479, 3329325298]

/-- The initial hash value. -/
def shaH0 : List Nat :=
  [1779033703, 3144134277, 1013904242, 2773480762, 1359893119, 2600822924,
   528734635, 1541459225]

/-- Big-endian 64-bit length field. -/
def len64be (n : Nat) : List Nat :=
  [n / 2 ^ 56 % 256, n / 2 ^ 48 % 256, n / 2 ^ 40 % 256, n / 2 ^ 32 % 256,
   n / 2 ^ 24 % 256, n / 2 ^ 16 % 256, n / 2 ^ 8 % 256, n % 256]

/-- FIPS 180-4 padding: `0x80`, zeros to 56 mod 64, 64-bit bit length. -/
def sha256pad (msg : List Nat) : List Nat :=
  let L := msg.length
  let k := (119 - L % 64) % 64
  msg ++ 128 :: List.replicate k 0 ++ len64be (8 * L)

/-- Big-endian 32-bit words from bytes. -/
def toWords : List Nat → List Nat
  | b0 :: b1 :: b2 :: b3 :: r => (((b0 * 256 + b1) * 256 + b2) * 256 + b3) :: toWords r
  | _ => []

/-- Fueled 16-word chunking; the word-list length is always enough fuel. -/
def chunk16A : Nat → List Nat → List (List Nat)
  | 0, _ => []
  | _, [] => []
  | fuel + 1, ws => ws.take 16 :: chunk16A fuel (ws.drop 16)

/-- Split a word list into 16-word blocks. -/
def chunk16 (ws : List Nat) : List (List Nat) := chunk16A ws.length ws

/-- Message-schedule extension: append words until 64. -/
def extendW : Nat → List Nat → List Nat
  | 0, w => w
  | n + 1, w =>
      let i := w.length
      let nw := w32 (sigma1 (w.getD (i - 2) 0) + w.getD (i - 7) 0 +
        sigma0 (w.getD (i - 15) 0) + w.getD (i - 16) 0)
      extendW n (w ++ [nw])

/-- One round of the compression function on state `[a,b,c,d,e,f,g,h]`. -/
def compressStep (st : List Nat) (kw : Nat × Nat) : List Nat :=
  match st with
  | [a, b, c, d, e, f, g, h] =>
      let t1 := w32 (h + bigSigma1 e + ((e &&& f) ^^^ (not32 e &&& g)) + kw.1 + kw.2)
      let t2 := w32 (bigSigma0 a + ((a &&& b) ^^^ (a &&& c) ^^^ (b &&& c)))
      [w32 (t1 + t2), a, b, c, w32 (d + t1), e, f, g]
  | _ => st

/-- Process one 16-word block. -/
def compressBlock (H : List Nat) (block : List Nat) : List Nat :=
  let w := extendW 48 block
  let st := (shaK.zip w).foldl compressStep H
  (H.zip st).map (fun p => w32 (p.1 + p.2))

/-- SHA-256 of a byte list, as eight 32-bit words. -/
def sha256 (msg : List Nat) : List Nat :=
  (chunk16 (toWords (sha256pad msg))).foldl compressBlock shaH0

/-- One word as eight lower-case hex digits. -/
def toHexWord (n : Nat) : List Char := hex4 (n / 65536) ++ hex4 (n % 65536)

/-- `hexdigest()`: the 64-character lower-case hex digest. -/
def sha256hex (msg : List Nat) : List Char :=
  (sha256 msg).foldr (fun wd acc => toHexWord wd ++ acc) []

/-! ## `DB.format_abspath` and `DB.format_hash` (backend.py lines 917-942)

The library's on-disk state is an association list from absolute file
path to byte content.  `format_abspath` resolves the expected
`<dir>/<fname>.<fmt>` file, falling back to a `glob('*' + fmt)` candidate
(which it copies to the expected name before returning it); it returns
`none` when nothing resolves.  The model returns the resolved path
together with its content (the content the subsequent read sees). -/

/-- Embedding of `DB.format_abspath`.  `fs` lists the files on disk. -/
def format_abspath (fs : List (List Char × List Nat)) (library path fname fmt : List Char) :
    Option (List Char × List Nat) :=
  let fmtext := if fmt = [] then [] else '.' :: fmt.map Char.toLower
  let dir := library ++ '/' :: path
  let fmt_path := dir ++ '/' :: fname ++ fmtext
  match dictLookup fs fmt_path with
  | some content => some (fmt_path, content)
  | none =>
      let candidates := fs.filter (fun p =>
        (dir ++ ['/']).isPrefixOf p.1 ∧
        ¬ (p.1.drop (dir.length + 1)).contains '/' ∧
        fmtext.isSuffixOf p.1)
      if fmt = [] then none
      else
        match candidates.head? with
        | some cand => some (fmt_path, cand.2)
        | none => none

/-- The `f.read(SPOOL_SIZE)` loop of `format_hash`: full chunks until a
short (possibly empty) chunk ends the loop.  `spool` is `SPOOL_SIZE`
(calibre.db, not under `src/`; the spec says only that chunks have a
fixed size, so the chunk size is a parameter). -/
def readChunksA (spool : Nat) : Nat → List Nat → List (List Nat)
  | 0, content => [content]
  | fuel + 1, content =>
      if content.length < spool then [content]
      else content.take spool :: readChunksA spool fuel (content.drop spool)

/-- For a positive chunk size the loop runs at most `content.length`
times, so that is always enough fuel. -/
def readChunks (spool : Nat) (content : List Nat) : List (List Nat) :=
  readChunksA spool content.length content

/-- The byte string accumulated by the successive `sha.update(raw)`
calls: `hashlib`'s documented contract is that the digest is the hash of
the concatenation of all updates. -/
def hashUpdates (chunks : List (List Nat)) : List Nat :=
  chunks.foldl (fun acc c => acc ++ c) []

/-- Embedding of `DB.format_hash` (backend.py lines 931-942): resolve the
file via `format_abspath`, raise `NoSuchFormat` if that returns `None`,
else stream the file through SHA-256 in `spool`-sized chunks and return
the hex digest. -/
def format_hash (spool : Nat) (fs : List (List Char × List Nat))
    (library path fname fmt : List Char) : Except Unit (List Char) :=
  match format_abspath fs library path fname fmt with
  | none => .error ()
  | some pc => .ok (sha256hex (hashUpdates (readChunks spool pc.2)))

/-! ## `DB.update_path` (backend.py lines 1103-1170)

The call reads the stored path and format file-name stems (`path_field`,
`formats_field`), recomputes both names, and fast-exits when nothing
changed.  Otherwise it creates the target directory, migrates cover and
format files, updates the database only after every copy returned, then
deletes the stale source tree (through the guarded `rmtree`) and finally
reconciles case-only renames segment by segment.

Filesystem truth (existence checks, which copies raise, `samefile`,
directory emptiness, rename failures) is environment input `UPEnv`;
executed filesystem writes are reported as a trace of `FsOp`.  An
exception leaves the function with the database untouched (the Windows
`finally` only closes handles), which the model renders by returning the
input `UPDb` next to the error. -/

inductive FsOp where
  | mkdirs (p : List Char)
  | copyCover (src dst : List Char)
  | copyFormat (fmt dst : List Char)
  | rmtree (p : List Char)
  | rename (src dst : List Char)
deriving DecidableEq

/-- The database state `update_path` reads and writes: the record's
stored path and the stored file-name stem per format (`''`/absent are
both falsy in the `name and name != fname` test). -/
structure UPDb where
  path : List Char
  fnames : List (List Char × List Char)
deriving DecidableEq

/-- Environment answers for one `update_path` run. -/
structure UPEnv where
  sourceExists : Bool
  tpathExists : Bool
  coverRaises : Bool
  fmtRaises : List Char → Bool
  spathStillExists : Bool
  samefileST : Bool
  parentEmpty : Bool
  renameFails : List Char → Bool

/-- `os.path.dirname`: drop the last `/`-separated segment. -/
def dirname (p : List Char) : List Char :=
  (p.reverse.dropWhile (fun c => ¬ c = '/')).tail.reverse

/-- The `for fmt in formats` copy loop (backend.py lines 1130-1133):
stops at the first format whose `copy_format_to` raises; returns the
trace of attempted copies and whether all of them returned. -/
def copyFormatsLoop (env : UPEnv) (tpath fname : List Char) :
    List (List Char) → List FsOp × Bool
  | [] => ([], true)
  | fmt :: rest =>
      let dst := tpath ++ '/' :: fname ++ '.' :: fmt.map Char.toLower
      if env.fmtRaises fmt then ([.copyFormat fmt dst], false)
      else
        let (ops, ok) := copyFormatsLoop env tpath fname rest
        (.copyFormat fmt dst :: ops, ok)

/-- The case-only segment rename loop (backend.py lines 1163-1170):
`curpath` accumulates the already processed segments; a segment that
differs only by case is renamed, and a rename failure breaks the loop
silently. -/
def caseRenameLoop (env : UPEnv) :
    List Char → List (List Char × List Char) → List FsOp
  | _, [] => []
  | curpath, (oldseg, newseg) :: rest =>
      let next := curpath ++ '/' :: newseg
      if oldseg.map Char.toLower = newseg.map Char.toLower ∧ ¬ oldseg = newseg then
        if env.renameFails next then []
        else .rename (curpath ++ '/' :: oldseg) next :: caseRenameLoop env next rest
      else caseRenameLoop env next rest

/-- The `name and name != fname` change test over the attached formats
(backend.py lines 1109-1114). -/
def fmtChanged (db : UPDb) (fname : List Char) (formats : List (List Char)) : Bool :=
  formats.any (fun fmt =>
    match dictLookup db.fnames fmt with
    | some n => ¬ n = [] ∧ ¬ n = fname
    | none => false)

/-- The migration block (backend.py lines 1126-1133): when the source
directory exists, copy the cover, then each format in order, stopping at
the first raising copy. -/
def migrateFiles (env : UPEnv) (spath tpath fname : List Char)
    (formats : List (List Char)) (source_ok : Bool) :
    Option PyErr × List FsOp :=
  if source_ok then
    let coverOp := FsOp.copyCover spath
      (tpath ++ '/' :: ['c', 'o', 'v', 'e', 'r', '.', 'j', 'p', 'g'])
    if env.coverRaises then (some .ioError, [coverOp])
    else
      let r := copyFormatsLoop env tpath fname formats
      (if r.2 then none else some .ioError, coverOp :: r.1)
  else (none, [])

/-- The stale-directory deletion block (backend.py lines 1140-1147),
with both deletions routed through the guarded `rmtree`. -/
def delOpsOf (env : UPEnv) (caseSensitive : Bool) (library spath : List Char)
    (source_ok : Bool) : List FsOp :=
  if source_ok && env.spathStillExists && ! env.samefileST then
    (if rmtreeDeletes caseSensitive library spath then [.rmtree spath] else []) ++
    (if env.parentEmpty then
        (if rmtreeDeletes caseSensitive library (dirname spath) then
          [.rmtree (dirname spath)]
        else [])
      else [])
  else []

/-- The case-only rename reconciliation block (backend.py lines
1152-1170). -/
def caseOpsOf (env : UPEnv) (caseSensitive : Bool)
    (library current path : List Char) : List FsOp :=
  let c1 := current.splitOn '/'
  let c2 := path.splitOn '/'
  if ¬ caseSensitive ∧ c1.length = c2.length then
    caseRenameLoop env library (c1.zip c2)
  else []

/-- Embedding of `DB.update_path`.  Returns the error if any (with the
database exactly as the call left it) and the trace of filesystem writes
in program order. -/
def update_path (af : List Char → List Char) (unknown : List Char)
    (iswindows caseSensitive : Bool) (env : UPEnv) (library : List Char)
    (book_id : Nat) (title author : List Char) (formats : List (List Char))
    (db : UPDb) : (Option PyErr × UPDb) × List FsOp :=
  match construct_path_name af unknown iswindows book_id title author with
  | .error e => ((some e, db), [])
  | .ok path =>
      let current := db.path
      let fname := construct_file_name af iswindows book_id title author
      if path = current ∧ fmtChanged db fname formats = false then
        ((none, db), [])
      else
        let spath := library ++ '/' :: current
        let tpath := library ++ '/' :: path
        let source_ok : Bool := (¬ current = [] : Bool) && env.sourceExists
        let t0 : List FsOp := if env.tpathExists then [] else [.mkdirs tpath]
        match migrateFiles env spath tpath fname formats source_ok with
        | (some e, mops) => ((some e, db), t0 ++ mops)
        | (none, mops) =>
            let db' : UPDb :=
              { path := path,
                fnames := formats.foldl (fun m fmt => dictUpsert m fmt fname) db.fnames }
            ((none, db'),
              t0 ++ mops ++ delOpsOf env caseSensitive library spath source_ok ++
                caseOpsOf env caseSensitive library current path)

/-! ## Parser fuel measures

`parseVal` recurses on explicit fuel; `dV`/`dA`/`dO` bound the fuel a
printed value needs (one unit per container-nesting step). -/

mutual

def dV : JVal → Nat
  | .obj kvs => dO kvs + 1
  | .arr xs => dA xs + 1
  | .str _ => 1
  | .num _ => 1
  | .bool _ => 1
  | .null => 1
termination_by v => sizeOf v

def dA : List JVal → Nat
  | [] => 1
  | x :: rest => Nat.max (dV x) (dA rest) + 1
termination_by xs => sizeOf xs

def dO : List (List Char × JVal) → Nat
  | [] => 1
  | (_, v) :: rest => Nat.max (dV v) (dO rest) + 1
termination_by kvs => sizeOf kvs

end

/-- Head-is-a-digit test for the residual input of a number parse. -/
def headIsDigit : List Char → Bool
  | c :: _ => isDigitCh c
  | [] => false

/-! # Theorems -/

/-- C10: with `disable_setting` set, `set`/`__setitem__` return without
error and leave both the preferences table and the in-memory mirror
unchanged; with the flag clear, a completed call persists the serialized
value and mirrors it. -/
theorem dbprefs_disable_setting_silent_noop (st : PrefsState) (k : List Char)
    (v : JVal) (o : SetOutcome) :
    dbprefs_setitem true o st k v = (st, true) ∧
    (dbprefs_setitem false .completed st k v).1.table =
      dictUpsert st.table k (to_raw v) ∧
    (dbprefs_setitem false .completed st k v).1.mirror =
      dictUpsert st.mirror k v := by
  exact ⟨rfl, rfl, rfl⟩

/-- C3: every outcome of a preference mutation (normal return, statement
failure, crash between persist and mirror update) leaves the mirror
either untouched or updated together with the already persisted
serialized value; the mirror is never ahead of storage. -/
theorem dbprefs_mirror_never_ahead (disable : Bool) (o : SetOutcome)
    (st : PrefsState) (k : List Char) (v : JVal) :
    (dbprefs_setitem disable o st k v).1.mirror = st.mirror ∨
      ((dbprefs_setitem disable o st k v).1.mirror = dictUpsert st.mirror k v ∧
       (dbprefs_setitem disable o st k v).1.table = dictUpsert st.table k (to_raw v)) := by
  cases disable with
  | true => exact Or.inl rfl
  | false =>
      cases o with
      | completed => exact Or.inr ⟨rfl, rfl⟩
      | execRaises => exact Or.inl rfl
      | crashAfterExec => exact Or.inl rfl

/-- C9: `rmtree` deletes exactly when the normalized library root does
not start with the normalized target, and therefore never deletes the
library root itself or any ancestor directory of it. -/
theorem rmtree_never_deletes_library_root (caseSensitive : Bool)
    (library path : List Char)
    (h : normpath caseSensitive library = normpath caseSensitive path ∨
         ∃ rest, normpath caseSensitive library =
           normpath caseSensitive path ++ '/' :: rest) :
    rmtreeDeletes caseSensitive library path = false ∧
    (∀ lib2 p2, rmtreeDeletes caseSensitive lib2 p2 = true ↔
      ¬ (normpath caseSensitive p2).isPrefixOf (normpath caseSensitive lib2)) := by
  constructor
  · have hpre : (normpath caseSensitive path).isPrefixOf
        (normpath caseSensitive library) = true := by
      rcases h with h | ⟨rest, h⟩
      · rw [h]
        exact List.isPrefixOf_iff_prefix.mpr (List.prefix_refl _)
      · rw [h]
        exact List.isPrefixOf_iff_prefix.mpr (List.prefix_append _ _)
    simp [rmtreeDeletes, hpre]
  · intro lib2 p2
    simp [rmtreeDeletes]

/-- Witness for C9 at a concrete ancestor on a case-insensitive
filesystem. -/
theorem rmtree_never_deletes_library_root_witness :
    rmtreeDeletes false ("/lib/Books").toList ("/Lib").toList = false :=
  (rmtree_never_deletes_library_root false ("/lib/Books").toList ("/Lib").toList
    (Or.inr ⟨("books").toList, by decide⟩)).1

/-- C8 (failing input): with a sanitizer that leaves ASCII-clean input
unchanged, an author whose sanitization is empty (`''`) and an author
whose sanitization strips to empty (`'.'`) both make
`construct_path_name` raise IndexError in the trailing dot/space strip
loop; the `Unknown` fallback of backend.py line 840 is unreachable, since
the loop's `author[-1]` subscript raises first on every path that could
reach the fallback with an empty author. -/
theorem construct_path_name_empty_author_raises :
    construct_path_name (fun s => s) ("Unknown").toList false 7
        ("Title").toList [] = .error .indexError ∧
    construct_path_name (fun s => s) ("Unknown").toList false 7
        ("Title").toList ['.'] = .error .indexError ∧
    construct_file_name (fun s => s) false 7 ("Title").toList [] =
      ("Title - ").toList := by
  exact ⟨rfl, rfl, rfl⟩

/-- Every slot assigned in the custom block exceeds the running base. -/
theorem assignCustomSlots_gt_base :
    ∀ (cols : List CustomColumn) (base : Nat) (k : FKey) (s : Nat),
      (k, s) ∈ assignCustomSlots base cols → base < s := by
  intro cols
  induction cols with
  | nil => intro base k s h; cases h
  | cons c rest ih =>
      intro base k s h
      by_cases hd : c.datatype = "series" <;> simp [assignCustomSlots, hd] at h
      · rcases h with ⟨_, hs⟩ | ⟨_, hs⟩ | hmem
        · omega
        · omega
        · have := ih (base + 2) k s hmem
          omega
      · rcases h with ⟨_, hs⟩ | hmem
        · omega
        · have := ih (base + 1) k s hmem
          omega

/-- Looking up any member column in the custom block yields a slot above
the base. -/
theorem assignCustomSlots_find_num :
    ∀ (cols : List CustomColumn) (base : Nat) (c : CustomColumn), c ∈ cols →
      ∃ s, (assignCustomSlots base cols).find? (fun p => p.1 = FKey.num c.num) =
        some (FKey.num c.num, s) ∧ base < s := by
  intro cols
  induction cols with
  | nil => intro base c hc; cases hc
  | cons c0 rest ih =>
      intro base c hc
      by_cases hn : c0.num = c.num
      · refine ⟨base + 1, ?_, by omega⟩
        by_cases hd : c0.datatype = "series" <;>
          simp [assignCustomSlots, hd, List.find?_cons, hn]
      · rcases List.mem_cons.mp hc with rfl | hmem
        · exact absurd rfl hn
        · by_cases hd : c0.datatype = "series"
          · rcases ih (base + 2) c hmem with ⟨s, hf, hs⟩
            refine ⟨s, ?_, by omega⟩
            simp [assignCustomSlots, hd, List.find?_cons, hn, hf]
          · rcases ih (base + 1) c hmem with ⟨s, hf, hs⟩
            refine ⟨s, ?_, by omega⟩
            simp [assignCustomSlots, hd, List.find?_cons, hn, hf]

/-- With distinct column ids, a series column's value and index slots are
consecutive. -/
theorem assignCustomSlots_series_pair :
    ∀ (cols : List CustomColumn) (base : Nat) (c : CustomColumn),
      (cols.map CustomColumn.num).Nodup → c ∈ cols → c.datatype = "series" →
      ∃ s, (assignCustomSlots base cols).find? (fun p => p.1 = FKey.num c.num) =
          some (FKey.num c.num, s) ∧
        (assignCustomSlots base cols).find? (fun p => p.1 = FKey.numIndex c.num) =
          some (FKey.numIndex c.num, s + 1) ∧ base < s := by
  intro cols
  induction cols with
  | nil => intro base c _ hc; cases hc
  | cons c0 rest ih =>
      intro base c hnd hc hser
      have hnd' : (rest.map CustomColumn.num).Nodup := (List.nodup_cons.mp hnd).2
      have hnotin : c0.num ∉ rest.map CustomColumn.num := (List.nodup_cons.mp hnd).1
      rcases List.mem_cons.mp hc with rfl | hmem
      · refine ⟨base + 1, ?_, ?_, by omega⟩
        · simp [assignCustomSlots, hser, List.find?_cons]
        · simp [assignCustomSlots, hser, List.find?_cons]
      · have hne : ¬ c0.num = c.num := by
          intro he
          exact hnotin (he ▸ List.mem_map_of_mem CustomColumn.num hmem)
        by_cases hd : c0.datatype = "series"
        · rcases ih (base + 2) c hnd' hmem hser with ⟨s, h1, h2, hs⟩
          refine ⟨s, ?_, ?_, by omega⟩
          · simp [assignCustomSlots, hd, List.find?_cons, hne, h1]
          · simp [assignCustomSlots, hd, List.find?_cons, hne, h2]
        · rcases ih (base + 1) c hnd' hmem hser with ⟨s, h1, h2, hs⟩
          refine ⟨s, ?_, ?_, by omega⟩
          · simp [assignCustomSlots, hd, List.find?_cons, hne, h1]
          · simp [assignCustomSlots, hd, List.find?_cons, hne, h2]

/-- The slots of the custom block strictly increase in iteration order. -/
theorem assignCustomSlots_slots_ascending :
    ∀ (cols : List CustomColumn) (base : Nat),
      List.Chain' (· < ·) ((assignCustomSlots base cols).map Prod.snd) := by
  intro cols
  induction cols with
  | nil => intro base; simp [assignCustomSlots]
  | cons c rest ih =>
      intro base
      have hbound : ∀ x ∈ ((assignCustomSlots (base + 2) rest).map Prod.snd),
          base + 2 < x := by
        intro x hx
        rcases List.mem_map.mp hx with ⟨⟨k, s⟩, hmem, rfl⟩
        exact assignCustomSlots_gt_base rest (base + 2) k s hmem
      have hbound1 : ∀ x ∈ ((assignCustomSlots (base + 1) rest).map Prod.snd),
          base + 1 < x := by
        intro x hx
        rcases List.mem_map.mp hx with ⟨⟨k, s⟩, hmem, rfl⟩
        exact assignCustomSlots_gt_base rest (base + 1) k s hmem
      by_cases hd : c.datatype = "series"
      · simp only [assignCustomSlots]
        rw [if_pos hd]
        simp only [List.map_cons]
        refine List.chain'_cons.mpr ⟨by omega, ?_⟩
        refine (List.chain'_cons').mpr ⟨?_, ih (base + 2)⟩
        intro y hy
        exact hbound y (List.mem_of_mem_head? hy)
      · simp only [assignCustomSlots]
        rw [if_neg hd]
        simp only [List.map_cons]
        refine (List.chain'_cons').mpr ⟨?_, ih (base + 1)⟩
        intro y hy
        exact hbound1 y (List.mem_of_mem_head? hy)

/-- Slot assignment ignores the labels entirely: relabelling the columns
leaves the computed map unchanged (so two runs over the same iteration
sequence of (id, datatype) pairs agree). -/
theorem assignCustomSlots_label_blind (f : String → String) :
    ∀ (cols : List CustomColumn) (base : Nat),
      assignCustomSlots base
          (cols.map (fun c => CustomColumn.mk (f c.label) c.num c.datatype)) =
        assignCustomSlots base cols := by
  intro cols
  induction cols with
  | nil => intro base; rfl
  | cons c rest ih =>
      intro base
      by_cases hd : c.datatype = "series" <;>
        simp [assignCustomSlots, hd, ih]

/-- The trailing `ondevice` base is likewise label-blind. -/
theorem customBase_label_blind (f : String → String) :
    ∀ (cols : List CustomColumn) (base : Nat),
      customBase base
          (cols.map (fun c => CustomColumn.mk (f c.label) c.num c.datatype)) =
        customBase base cols := by
  intro cols
  induction cols with
  | nil => intro base; rfl
  | cons c rest ih =>
      intro base
      by_cases hd : c.datatype = "series" <;> simp [customBase, hd, ih]

/-- Every built-in binding is found at itself in the constant block. -/
theorem builtin_find_self :
    ∀ kv ∈ builtinFieldMap,
      builtinFieldMap.find? (fun p => p.1 = kv.1) = some kv := by
  decide

/-- No custom-column id key occurs in the constant block. -/
theorem builtin_find_num_none (n : Nat) :
    builtinFieldMap.find? (fun p => p.1 = FKey.num n) = none := by
  simp [builtinFieldMap]

/-- No series-index key occurs in the constant block. -/
theorem builtin_find_numIndex_none (n : Nat) :
    builtinFieldMap.find? (fun p => p.1 = FKey.numIndex n) = none := by
  simp [builtinFieldMap]

/-- `FIELD_MAP` lookup splits over the three blocks. -/
theorem fmLookup_init (cols : List CustomColumn) (k : FKey) :
    fmLookup (initialize_tables cols) k =
      ((builtinFieldMap.find? (fun p => p.1 = k)).or
        (((assignCustomSlots builtinBase cols).find? (fun p => p.1 = k)).or
          (([(FKey.name "ondevice", customBase builtinBase cols + 1),
             (FKey.name "marked", customBase builtinBase cols + 2),
             (FKey.name "series_sort", customBase builtinBase cols + 3)] :
               List (FKey × Nat)).find?
            (fun p => p.1 = k)))).map Prod.snd := by
  simp [fmLookup, initialize_tables, List.find?_append]

/-- C1 (amended): `initialize_tables` gives the 22 built-in fields of the
constant `FIELD_MAP` block their fixed slots (0-21); custom fields
receive strictly ascending slots starting at 22 in the order the
custom-column map is iterated (a Python dict order, not necessarily
label-sorted), a series-typed custom field consuming two consecutive
slots (value, then index); the assignment ignores labels, so identical
iteration sequences yield identical assignments; and after appending a
column every built-in slot is unchanged while every custom column's slot
(in particular the new one's) exceeds every built-in slot. -/
theorem initialize_tables_slot_assignment (cols : List CustomColumn)
    (c : CustomColumn) (hnd : (cols.map CustomColumn.num).Nodup) :
    (∀ kv ∈ builtinFieldMap, fmLookup (initialize_tables cols) kv.1 = some kv.2) ∧
    (∀ kv ∈ builtinFieldMap,
      fmLookup (initialize_tables (cols ++ [c])) kv.1 =
        fmLookup (initialize_tables cols) kv.1) ∧
    (∀ c' ∈ cols ++ [c], ∃ s,
      fmLookup (initialize_tables (cols ++ [c])) (.num c'.num) = some s ∧
      builtinBase < s) ∧
    (∀ c0 rest, cols = c0 :: rest →
      fmLookup (initialize_tables cols) (.num c0.num) = some (builtinBase + 1)) ∧
    (∀ c' ∈ cols, c'.datatype = "series" → ∃ s,
      fmLookup (initialize_tables cols) (.num c'.num) = some s ∧
      fmLookup (initialize_tables cols) (.numIndex c'.num) = some (s + 1)) ∧
    List.Chain' (· < ·) ((assignCustomSlots builtinBase cols).map Prod.snd) ∧
    (∀ f : String → String,
      initialize_tables
          (cols.map fun c' => CustomColumn.mk (f c'.label) c'.num c'.datatype) =
        initialize_tables cols) := by
  have hb : ∀ (cols' : List CustomColumn) (kv : FKey × Nat),
      kv ∈ builtinFieldMap →
      fmLookup (initialize_tables cols') kv.1 = some kv.2 := by
    intro cols' kv hkv
    rw [fmLookup_init, builtin_find_self kv hkv]
    rfl
  refine ⟨fun kv hkv => hb cols kv hkv,
    fun kv hkv => by rw [hb cols kv hkv, hb (cols ++ [c]) kv hkv], ?_, ?_, ?_,
    assignCustomSlots_slots_ascending cols builtinBase, ?_⟩
  · intro c' hc'
    rcases assignCustomSlots_find_num (cols ++ [c]) builtinBase c' hc' with
      ⟨s, hf, hs⟩
    refine ⟨s, ?_, hs⟩
    rw [fmLookup_init, builtin_find_num_none, hf]
    rfl
  · intro c0 rest hcols
    subst hcols
    have hf : (assignCustomSlots builtinBase (c0 :: rest)).find?
        (fun p => p.1 = FKey.num c0.num) =
        some (FKey.num c0.num, builtinBase + 1) := by
      by_cases hd : c0.datatype = "series" <;>
        simp [assignCustomSlots, hd, List.find?_cons]
    rw [fmLookup_init, builtin_find_num_none, hf]
    rfl
  · intro c' hc' hser
    rcases assignCustomSlots_series_pair cols builtinBase c' hnd hc' hser with
      ⟨s, h1, h2, hs⟩
    refine ⟨s, ?_, ?_⟩
    · rw [fmLookup_init, builtin_find_num_none, h1]
      rfl
    · rw [fmLookup_init, builtin_find_numIndex_none, h2]
      rfl
  · intro f
    simp only [initialize_tables, assignCustomSlots_label_blind f,
      customBase_label_blind f]

/-- C1 (counterexample): with the reachable dict iteration order
`[label "b", label "a"]` the custom slots are 22 for `"b"` and 23 for
`"a"`, so slots are not assigned in ascending label-sorted order. -/
theorem initialize_tables_not_label_sorted :
    ¬ labelSortedSlots
      [CustomColumn.mk "b" 1 "text", CustomColumn.mk "a" 2 "text"] := by
  decide

/-- Witness for C1 at a single series column: its value slot is 22. -/
theorem initialize_tables_slot_assignment_witness :
    fmLookup (initialize_tables [CustomColumn.mk "x" 3 "series"])
      (.num 3) = some 22 := by
  have h := initialize_tables_slot_assignment [CustomColumn.mk "x" 3 "series"]
    (CustomColumn.mk "y" 4 "text") (by decide)
  exact h.2.2.2.1 (CustomColumn.mk "x" 3 "series") [] rfl

/-- Looking up the freshly assigned key. -/
theorem dictLookup_upsert_self {α : Type} (m : List (List Char × α))
    (k : List Char) (v : α) : dictLookup (dictUpsert m k v) k = some v := by
  induction m with
  | nil => simp [dictUpsert, dictLookup, List.find?_cons]
  | cons p rest ih =>
      by_cases hk : p.1 = k
      · simp [dictUpsert, hk, dictLookup, List.find?_cons]
      · simp only [dictUpsert]
        rw [if_neg hk]
        simp only [dictLookup, List.find?_cons, decide_eq_false hk]
        exact ih

/-- Assignment leaves other keys alone. -/
theorem dictLookup_upsert_other {α : Type} (m : List (List Char × α))
    (k k' : List Char) (v : α) (h : ¬ k = k') :
    dictLookup (dictUpsert m k v) k' = dictLookup m k' := by
  induction m with
  | nil => simp [dictUpsert, dictLookup, List.find?_cons, h]
  | cons p rest ih =>
      by_cases hk : p.1 = k
      · have hp : ¬ p.1 = k' := by rw [hk]; exact h
        simp [dictUpsert, hk, dictLookup, List.find?_cons, h, hp]
      · simp only [dictUpsert]
        rw [if_neg hk]
        by_cases hk' : p.1 = k'
        · simp [dictLookup, List.find?_cons, hk']
        · simp only [dictLookup, List.find?_cons, decide_eq_false hk']
          exact ih

/-- Deletion removes the key. -/
theorem dictLookup_del_self {α : Type} (m : List (List Char × α))
    (k : List Char) : dictLookup (dictDel m k) k = none := by
  induction m with
  | nil => rfl
  | cons p rest ih =>
      rcases p with ⟨k0, v0⟩
      by_cases hk : k0 = k
      · simp only [dictDel]
        rw [if_pos hk]
        exact ih
      · simp only [dictDel]
        rw [if_neg hk]
        simp only [dictLookup, List.find?_cons]
        have : ¬ (k0, v0).1 = k := hk
        simp only [decide_eq_false this]
        exact ih

/-- Deletion leaves other keys alone. -/
theorem dictLookup_del_other {α : Type} (m : List (List Char × α))
    (k k' : List Char) (h : ¬ k = k') :
    dictLookup (dictDel m k) k' = dictLookup m k' := by
  induction m with
  | nil => rfl
  | cons p rest ih =>
      rcases p with ⟨k0, v0⟩
      by_cases hk : k0 = k
      · have hp : ¬ (k0, v0).1 = k' := by
          show ¬ k0 = k'
          rw [hk]; exact h
        simp only [dictDel]
        rw [if_pos hk, ih]
        simp only [dictLookup, List.find?_cons, decide_eq_false hp]
      · simp only [dictDel]
        rw [if_neg hk]
        by_cases hk' : k0 = k'
        · simp [dictLookup, List.find?_cons, hk']
        · have hp : ¬ (k0, v0).1 = k' := hk'
          simp only [dictLookup, List.find?_cons, decide_eq_false hp]
          exact ih

/-- A present key has a binding. -/
theorem dictLookup_isSome_of_mem {α : Type} (m : List (List Char × α))
    (k : List Char) (h : k ∈ m.map Prod.fst) :
    ∃ v, dictLookup m k = some v := by
  induction m with
  | nil => cases h
  | cons p rest ih =>
      by_cases hk : p.1 = k
      · exact ⟨p.2, by simp [dictLookup, List.find?_cons, hk]⟩
      · have h' : k ∈ rest.map Prod.fst := by
          rcases List.mem_map.mp h with ⟨q, hq, hqk⟩
          rcases List.mem_cons.mp hq with rfl | hq'
          · exact absurd hqk hk
          · exact hqk ▸ List.mem_map_of_mem Prod.fst hq'
        rcases ih h' with ⟨v, hv⟩
        refine ⟨v, ?_⟩
        simp only [dictLookup, List.find?_cons, decide_eq_false hk]
        exact hv

/-- Digit characters and their values, bundled for `decide`. -/
theorem digitCh_facts : ∀ m, m < 10 →
    isDigitCh (digitCh m) = true ∧ Char.toLower (digitCh m) = digitCh m ∧
    (digitCh m).toNat = 48 + m := by
  decide

/-- Every character produced by the fueled digit expansion is a decimal
digit (given sufficient fuel). -/
theorem natCharsA_digits :
    ∀ (n : Nat) (f : Nat), n ≤ f → ∀ c ∈ natCharsA f n,
      ∃ m, m < 10 ∧ c = digitCh m := by
  intro n
  induction n using Nat.strong_induction_on with
  | _ n ih =>
      intro f hf c hc
      cases f with
      | zero =>
          have hn : n = 0 := Nat.le_zero.mp hf
          subst hn
          simp only [natCharsA, List.mem_singleton] at hc
          exact ⟨0, by omega, hc⟩
      | succ f' =>
          by_cases h10 : n < 10
          · simp only [natCharsA] at hc
            rw [if_pos h10] at hc
            simp only [List.mem_singleton] at hc
            exact ⟨n, h10, hc⟩
          · simp only [natCharsA] at hc
            rw [if_neg h10] at hc
            rcases List.mem_append.mp hc with hc' | hc'
            · have hdiv : n / 10 < n := Nat.div_lt_self (by omega) (by omega)
              exact ih (n / 10) hdiv f' (by omega) c hc'
            · simp only [List.mem_singleton] at hc'
              exact ⟨n % 10, Nat.mod_lt _ (by omega), hc'⟩

/-- Folding the digits back recovers the number. -/
theorem natCharsA_foldl :
    ∀ (n : Nat) (f a : Nat), n ≤ f →
      (natCharsA f n).foldl (fun acc c => acc * 10 + (c.toNat - 48)) a =
        a * 10 ^ (natCharsA f n).length + n := by
  intro n
  induction n using Nat.strong_induction_on with
  | _ n ih =>
      intro f a hf
      cases f with
      | zero =>
          have hn : n = 0 := Nat.le_zero.mp hf
          subst hn
          simp [natCharsA, (digitCh_facts 0 (by omega)).2.2]
      | succ f' =>
          by_cases h10 : n < 10
          · simp only [natCharsA]
            rw [if_pos h10]
            simp [(digitCh_facts n h10).2.2]
          · simp only [natCharsA]
            rw [if_neg h10]
            have hdiv : n / 10 < n := Nat.div_lt_self (by omega) (by omega)
            rw [List.foldl_append]
            rw [ih (n / 10) hdiv f' a (by omega)]
            simp only [List.foldl_cons, List.foldl_nil, List.length_append,
              List.length_singleton]
            rw [(digitCh_facts (n % 10) (Nat.mod_lt _ (by omega))).2.2]
            have : 48 + n % 10 - 48 = n % 10 := by omega
            rw [this, pow_succ]
            have hmod := Nat.div_add_mod n 10
            ring_nf
            omega

/-- `digitsVal` inverts `natChars`. -/
theorem digitsVal_natChars (n : Nat) : digitsVal (natChars n) = n := by
  have := natCharsA_foldl n n 0 (Nat.le_refl n)
  simpa [digitsVal, natChars] using this

/-- `natChars` is injective. -/
theorem natChars_inj (m n : Nat) (h : natChars m = natChars n) : m = n := by
  have hm := digitsVal_natChars m
  have hn := digitsVal_natChars n
  rw [h] at hm
  omega

/-- Lowercasing is transparent on the digit tail of a candidate name. -/
theorem icu_lower_append_digits (cat : List Char) (n : Nat) :
    icu_lower (cat ++ natChars n) = icu_lower cat ++ natChars n := by
  have hd : (natChars n).map Char.toLower = natChars n := by
    have : ∀ c ∈ natChars n, Char.toLower c = c := by
      intro c hc
      rcases natCharsA_digits n n (Nat.le_refl n) c hc with ⟨m, hm, rfl⟩
      exact (digitCh_facts m hm).2.1
    calc (natChars n).map Char.toLower = (natChars n).map id :=
          List.map_congr_left this
      _ = natChars n := List.map_id _
  simp [icu_lower, List.map_append, hd]

/-- The suffix search never returns below its start. -/
theorem findSuffixAux_ge (keys : List (List Char)) (cat : List Char) :
    ∀ (fuel start : Nat), start ≤ findSuffixAux keys cat fuel start := by
  intro fuel
  induction fuel with
  | zero => intro start; simp [findSuffixAux]
  | succ f ih =>
      intro start
      simp only [findSuffixAux]
      by_cases hc : keys.contains (icu_lower (cat ++ natChars start)) = true
      · rw [if_pos hc]
        have := ih (start + 1)
        omega
      · rw [if_neg hc]

/-- Every suffix skipped by the search collides with a `catmap` key. -/
theorem findSuffixAux_before (keys : List (List Char)) (cat : List Char) :
    ∀ (fuel start j : Nat), start ≤ j →
      j < findSuffixAux keys cat fuel start →
      keys.contains (icu_lower (cat ++ natChars j)) = true := by
  intro fuel
  induction fuel with
  | zero =>
      intro start j h1 h2
      simp [findSuffixAux] at h2
      omega
  | succ f ih =>
      intro start j h1 h2
      simp only [findSuffixAux] at h2
      by_cases hc : keys.contains (icu_lower (cat ++ natChars start)) = true
      · rw [if_pos hc] at h2
        rcases Nat.eq_or_lt_of_le h1 with rfl | hlt
        · exact hc
        · exact ih (start + 1) j hlt h2
      · rw [if_neg hc] at h2
        omega

/-- The search stops at a free suffix unless the fuel runs out exactly. -/
theorem findSuffixAux_free_or_max (keys : List (List Char)) (cat : List Char) :
    ∀ (fuel start : Nat),
      keys.contains (icu_lower (cat ++ natChars
          (findSuffixAux keys cat fuel start))) = false ∨
        findSuffixAux keys cat fuel start = start + fuel := by
  intro fuel
  induction fuel with
  | zero => intro start; right; simp [findSuffixAux]
  | succ f ih =>
      intro start
      simp only [findSuffixAux]
      by_cases hc : keys.contains (icu_lower (cat ++ natChars start)) = true
      · rw [if_pos hc]
        rcases ih (start + 1) with h | h
        · exact Or.inl h
        · right; omega
      · rw [if_neg hc]
        exact Or.inl (Bool.eq_false_iff.mpr hc)

/-- Pigeonhole: the chosen suffix's lowercased candidate is genuinely
absent from the `catmap` keys, because the `keys.length + 1` pairwise
distinct candidates probed cannot all lie in `keys`. -/
theorem findSuffix_free (keys : List (List Char)) (cat : List Char) :
    keys.contains (icu_lower (cat ++ natChars (findSuffix keys cat))) = false := by
  rcases findSuffixAux_free_or_max keys cat (keys.length + 1) 1 with h | h
  · exact h
  · exfalso
    have hall : ∀ j, 1 ≤ j → j ≤ keys.length + 1 →
        icu_lower (cat ++ natChars j) ∈ keys := by
      intro j h1 h2
      have := findSuffixAux_before keys cat (keys.length + 1) 1 j h1 (by
        rw [h]
        omega)
      exact List.elem_iff.mp this
    set f : Nat → List Char := fun i => icu_lower cat ++ natChars (i + 1) with hf
    have hinj : Function.Injective f := by
      intro i j hij
      simp only [hf] at hij
      have := natChars_inj (i + 1) (j + 1) (List.append_cancel_left hij)
      omega
    have hnd : ((List.range (keys.length + 1)).map f).Nodup :=
      (List.nodup_range (keys.length + 1)).map hinj
    have hsub : ((List.range (keys.length + 1)).map f) ⊆ keys := by
      intro x hx
      rcases List.mem_map.mp hx with ⟨i, hi, rfl⟩
      have hi' := List.mem_range.mp hi
      have := hall (i + 1) (by omega) (by omega)
      rw [icu_lower_append_digits] at this
      exact this
    have hcard1 : ((List.range (keys.length + 1)).map f).toFinset.card =
        keys.length + 1 := by
      rw [List.toFinset_card_of_nodup hnd]
      simp
    have hcard2 : ((List.range (keys.length + 1)).map f).toFinset.card ≤
        keys.length := by
      calc ((List.range (keys.length + 1)).map f).toFinset.card
          ≤ keys.toFinset.card := by
            apply Finset.card_le_card
            intro x hx
            exact List.mem_toFinset.mpr (hsub (List.mem_toFinset.mp hx))
        _ ≤ keys.length := keys.toFinset_card_le
    omega

/-- Where a binding in `catmapAdd m ucl uc` can come from. -/
theorem catmapAdd_mem (m : List (List Char × List (List Char)))
    (ucl uc : List Char) (p : List Char × List (List Char))
    (hp : p ∈ catmapAdd m ucl uc) :
    p ∈ m ∨ (p.1 = ucl ∧ p.2 = [uc]) ∨
      (∃ g0, (ucl, g0) ∈ m ∧ p.1 = ucl ∧ p.2 = g0 ++ [uc]) := by
  induction m with
  | nil =>
      simp only [catmapAdd, List.mem_singleton] at hp
      right; left
      rw [hp]
      exact ⟨rfl, rfl⟩
  | cons q rest ih =>
      rcases q with ⟨k, g⟩
      simp only [catmapAdd] at hp
      by_cases hk : k = ucl
      · rw [if_pos hk] at hp
        rcases List.mem_cons.mp hp with rfl | hp'
        · right; right
          exact ⟨g, by rw [hk]; exact List.mem_cons_self _ _, hk, rfl⟩
        · exact Or.inl (List.mem_cons_of_mem _ hp')
      · rw [if_neg hk] at hp
        rcases List.mem_cons.mp hp with rfl | hp'
        · exact Or.inl (List.mem_cons_self _ _)
        · rcases ih hp' with h | h | ⟨g0, hg0, h1, h2⟩
          · exact Or.inl (List.mem_cons_of_mem _ h)
          · exact Or.inr (Or.inl h)
          · exact Or.inr (Or.inr ⟨g0, List.mem_cons_of_mem _ hg0, h1, h2⟩)

/-- Keys after `catmapAdd`: unchanged when the class exists, else the new
class is appended. -/
theorem catmapAdd_keys (m : List (List Char × List (List Char)))
    (ucl uc : List Char) :
    (ucl ∈ m.map Prod.fst ∧
      (catmapAdd m ucl uc).map Prod.fst = m.map Prod.fst) ∨
    (ucl ∉ m.map Prod.fst ∧
      (catmapAdd m ucl uc).map Prod.fst = m.map Prod.fst ++ [ucl]) := by
  induction m with
  | nil => right; simp [catmapAdd]
  | cons q rest ih =>
      rcases q with ⟨k, g⟩
      by_cases hk : k = ucl
      · left
        constructor
        · simp [hk]
        · simp only [catmapAdd]
          rw [if_pos hk]
          simp [hk]
      · rcases ih with ⟨h1, h2⟩ | ⟨h1, h2⟩
        · left
          refine ⟨List.mem_cons_of_mem _ h1, ?_⟩
          simp only [catmapAdd]
          rw [if_neg hk]
          simp [h2]
        · right
          constructor
          · simp only [List.map_cons, List.mem_cons]
            rintro (h | h)
            · exact hk h.symm
            · exact h1 h
          · simp only [catmapAdd]
            rw [if_neg hk]
            simp [h2]

/-- Key membership after `catmapAdd`. -/
theorem catmapAdd_keys_mem (m : List (List Char × List (List Char)))
    (ucl uc k : List Char) :
    k ∈ (catmapAdd m ucl uc).map Prod.fst ↔ k ∈ m.map Prod.fst ∨ k = ucl := by
  rcases catmapAdd_keys m ucl uc with ⟨h1, h2⟩ | ⟨h1, h2⟩
  · rw [h2]
    constructor
    · exact Or.inl
    · rintro (h | rfl)
      · exact h
      · exact h1
  · rw [h2]
    simp [List.mem_append]

/-- Group invariant of the `catmap` fold: every group is nonempty, its
members lowercase to its key, and its members come from the processed
names. -/
theorem buildCatmap_inv :
    ∀ (keys : List (List Char)) (m : List (List Char × List (List Char)))
      (S : List (List Char)),
      (∀ p ∈ m, (∀ u ∈ p.2, icu_lower u = p.1) ∧ p.2 ≠ [] ∧ ∀ u ∈ p.2, u ∈ S) →
      keys ⊆ S →
      ∀ p ∈ keys.foldl (fun m' uc => catmapAdd m' (icu_lower uc) uc) m,
        (∀ u ∈ p.2, icu_lower u = p.1) ∧ p.2 ≠ [] ∧ ∀ u ∈ p.2, u ∈ S := by
  intro keys
  induction keys with
  | nil => intro m S hm _ p hp; exact hm p hp
  | cons u rest ih =>
      intro m S hm hsub p hp
      simp only [List.foldl_cons] at hp
      refine ih (catmapAdd m (icu_lower u) u) S ?_ (fun x hx => hsub (List.mem_cons_of_mem _ hx)) p hp
      intro q hq
      rcases catmapAdd_mem m (icu_lower u) u q hq with h | ⟨h1, h2⟩ | ⟨g0, hg0, h1, h2⟩
      · exact hm q h
      · refine ⟨?_, by rw [h2]; simp, ?_⟩
        · intro x hx
          rw [h2] at hx
          simp only [List.mem_singleton] at hx
          rw [hx, h1]
        · intro x hx
          rw [h2] at hx
          simp only [List.mem_singleton] at hx
          rw [hx]
          exact hsub (List.mem_cons_self _ _)
      · rcases hm (icu_lower u, g0) hg0 with ⟨hg1, _, hg3⟩
        refine ⟨?_, by rw [h2]; simp, ?_⟩
        · intro x hx
          rw [h2] at hx
          rcases List.mem_append.mp hx with hx' | hx'
          · rw [h1]; exact hg1 x hx'
          · simp only [List.mem_singleton] at hx'
            rw [hx', h1]
        · intro x hx
          rw [h2] at hx
          rcases List.mem_append.mp hx with hx' | hx'
          · exact hg3 x hx'
          · simp only [List.mem_singleton] at hx'
            rw [hx']
            exact hsub (List.mem_cons_self _ _)

/-- The `catmap` keys stay duplicate-free. -/
theorem buildCatmap_keys_nodup :
    ∀ (keys : List (List Char)) (m : List (List Char × List (List Char))),
      (m.map Prod.fst).Nodup →
      ((keys.foldl (fun m' uc => catmapAdd m' (icu_lower uc) uc) m).map
        Prod.fst).Nodup := by
  intro keys
  induction keys with
  | nil => intro m hm; exact hm
  | cons u rest ih =>
      intro m hm
      simp only [List.foldl_cons]
      refine ih (catmapAdd m (icu_lower u) u) ?_
      rcases catmapAdd_keys m (icu_lower u) u with ⟨_, h2⟩ | ⟨h1, h2⟩
      · rw [h2]; exact hm
      · rw [h2]
        simp only [List.nodup_append, List.nodup_singleton]
        exact ⟨hm, trivial, by simpa using h1⟩

/-- Existing classes survive the rest of the fold. -/
theorem buildCatmap_keys_mono :
    ∀ (keys : List (List Char)) (m : List (List Char × List (List Char)))
      (k : List Char), k ∈ m.map Prod.fst →
      k ∈ (keys.foldl (fun m' uc => catmapAdd m' (icu_lower uc) uc) m).map
        Prod.fst := by
  intro keys
  induction keys with
  | nil => intro m k hk; exact hk
  | cons u rest ih =>
      intro m k hk
      simp only [List.foldl_cons]
      exact ih _ k ((catmapAdd_keys_mem m (icu_lower u) u k).mpr (Or.inl hk))

/-- Every processed name's class is a `catmap` key. -/
theorem buildCatmap_class_mem :
    ∀ (keys : List (List Char)) (m : List (List Char × List (List Char)))
      (u : List Char), u ∈ keys →
      icu_lower u ∈
        (keys.foldl (fun m' uc => catmapAdd m' (icu_lower uc) uc) m).map
          Prod.fst := by
  intro keys
  induction keys with
  | nil => intro m u hu; cases hu
  | cons u0 rest ih =>
      intro m u hu
      simp only [List.foldl_cons]
      rcases List.mem_cons.mp hu with rfl | hu'
      · exact buildCatmap_keys_mono rest _ (icu_lower u)
          ((catmapAdd_keys_mem m (icu_lower u) u (icu_lower u)).mpr (Or.inr rfl))
      · exact ih _ u hu'

/-- Frame property of the rename loop: a name that is neither the first
member nor the rename target of any colliding group keeps its binding. -/
theorem repair_fold_frame :
    ∀ (gs : List (List Char × List (List Char))) (cmKeys : List (List Char))
      (acc : List (List Char × Nat)) (flag : Bool) (u : List Char),
      (∀ g ∈ gs, 1 < g.2.length → ¬ g.2.headI = u) →
      (∀ g ∈ gs, 1 < g.2.length → ¬ renameTarget cmKeys g = u) →
      dictLookup (gs.foldl (repairStep cmKeys) (acc, flag)).1 u =
        dictLookup acc u := by
  intro gs
  induction gs with
  | nil => intro cmKeys acc flag u _ _; rfl
  | cons g0 rest ih =>
      intro cmKeys acc flag u hh ht
      simp only [List.foldl_cons]
      by_cases hm : 1 < g0.2.length
      · have hstep : repairStep cmKeys (acc, flag) g0 =
            (dictDel (dictUpsert acc (renameTarget cmKeys g0)
              ((dictLookup acc g0.2.headI).getD 0)) g0.2.headI, true) := by
          simp [repairStep, hm, renameTarget]
        rw [hstep]
        rw [ih cmKeys _ true u
          (fun g hg hgm => hh g (List.mem_cons_of_mem _ hg) hgm)
          (fun g hg hgm => ht g (List.mem_cons_of_mem _ hg) hgm)]
        rw [dictLookup_del_other _ _ _ (hh g0 (List.mem_cons_self _ _) hm)]
        rw [dictLookup_upsert_other _ _ _ _ (ht g0 (List.mem_cons_self _ _) hm)]
      · have hstep : repairStep cmKeys (acc, flag) g0 = (acc, flag) := by
          simp [repairStep, hm]
        rw [hstep]
        exact ih cmKeys acc flag u
          (fun g hg hgm => hh g (List.mem_cons_of_mem _ hg) hgm)
          (fun g hg hgm => ht g (List.mem_cons_of_mem _ hg) hgm)

/-- Effect of the rename loop on a colliding group (under pairwise
distinctness of the touched names): the first member's binding is gone
and the rename target carries the first member's value as of loop
entry. -/
theorem repair_fold_multi :
    ∀ (gs : List (List Char × List (List Char))) (cmKeys : List (List Char))
      (acc : List (List Char × Nat)) (flag : Bool)
      (g : List Char × List (List Char)),
      g ∈ gs → 1 < g.2.length →
      gs.Pairwise (fun g1 g2 => 1 < g1.2.length → 1 < g2.2.length →
        ¬ g1.2.headI = g2.2.headI ∧
        ¬ renameTarget cmKeys g1 = renameTarget cmKeys g2) →
      (∀ g1 ∈ gs, ∀ g2 ∈ gs, 1 < g1.2.length → 1 < g2.2.length →
        ¬ renameTarget cmKeys g1 = g2.2.headI) →
      dictLookup (gs.foldl (repairStep cmKeys) (acc, flag)).1 g.2.headI = none ∧
      dictLookup (gs.foldl (repairStep cmKeys) (acc, flag)).1
          (renameTarget cmKeys g) =
        some ((dictLookup acc g.2.headI).getD 0) := by
  intro gs
  induction gs with
  | nil => intro cmKeys acc flag g hg; cases hg
  | cons g0 rest ih =>
      intro cmKeys acc flag g hg hgm hp1 hp2
      have hp1' := (List.pairwise_cons.mp hp1).2
      have hp1h := (List.pairwise_cons.mp hp1).1
      rcases List.mem_cons.mp hg with rfl | hgrest
      · -- the group is processed first
        simp only [List.foldl_cons]
        have hstep : repairStep cmKeys (acc, flag) g =
            (dictDel (dictUpsert acc (renameTarget cmKeys g)
              ((dictLookup acc g.2.headI).getD 0)) g.2.headI, true) := by
          simp [repairStep, hgm, renameTarget]
        rw [hstep]
        have htne : ¬ renameTarget cmKeys g = g.2.headI :=
          hp2 g (List.mem_cons_self _ _) g (List.mem_cons_self _ _) hgm hgm
        constructor
        · rw [repair_fold_frame rest cmKeys _ true g.2.headI
            (fun g2 hg2 hg2m he => ((hp1h g2 hg2) hgm hg2m).1 he.symm)
            (fun g2 hg2 hg2m => hp2 g2 (List.mem_cons_of_mem _ hg2) g
              (List.mem_cons_self _ _) hg2m hgm)]
          exact dictLookup_del_self _ _
        · rw [repair_fold_frame rest cmKeys _ true (renameTarget cmKeys g)
            (fun g2 hg2 hg2m => by
              intro he
              exact hp2 g (List.mem_cons_self _ _) g2
                (List.mem_cons_of_mem _ hg2) hgm hg2m he.symm)
            (fun g2 hg2 hg2m => by
              intro he
              exact ((hp1h g2 hg2) hgm hg2m).2 he.symm)]
          rw [dictLookup_del_other _ g.2.headI (renameTarget cmKeys g)
            (fun he => htne he.symm)]
          exact dictLookup_upsert_self _ _ _
      · -- the group is processed later
        simp only [List.foldl_cons]
        by_cases hm0 : 1 < g0.2.length
        · have hstep : repairStep cmKeys (acc, flag) g0 =
              (dictDel (dictUpsert acc (renameTarget cmKeys g0)
                ((dictLookup acc g0.2.headI).getD 0)) g0.2.headI, true) := by
            simp [repairStep, hm0, renameTarget]
          rw [hstep]
          have hIH := ih cmKeys (dictDel (dictUpsert acc
              (renameTarget cmKeys g0)
              ((dictLookup acc g0.2.headI).getD 0)) g0.2.headI) true g hgrest
            hgm hp1'
            (fun g1 hg1 g2 hg2 h1 h2 => hp2 g1 (List.mem_cons_of_mem _ hg1)
              g2 (List.mem_cons_of_mem _ hg2) h1 h2)
          have hacc : dictLookup (dictDel (dictUpsert acc
              (renameTarget cmKeys g0)
              ((dictLookup acc g0.2.headI).getD 0)) g0.2.headI) g.2.headI =
              dictLookup acc g.2.headI := by
            rw [dictLookup_del_other _ _ _ ((hp1h g hgrest hm0 hgm).1)]
            rw [dictLookup_upsert_other _ _ _ _
              (hp2 g0 (List.mem_cons_self _ _) g (List.mem_cons_of_mem _ hgrest)
                hm0 hgm)]
          rw [hacc] at hIH
          exact hIH
        · have hstep : repairStep cmKeys (acc, flag) g0 = (acc, flag) := by
            simp [repairStep, hm0]
          rw [hstep]
          exact ih cmKeys acc flag g hgrest hgm hp1'
            (fun g1 hg1 g2 hg2 h1 h2 => hp2 g1 (List.mem_cons_of_mem _ hg1)
              g2 (List.mem_cons_of_mem _ hg2) h1 h2)

/-- The `cats_changed` flag is set exactly when some group collides. -/
theorem repair_fold_flag :
    ∀ (gs : List (List Char × List (List Char))) (cmKeys : List (List Char))
      (acc : List (List Char × Nat)) (flag : Bool),
      (gs.foldl (repairStep cmKeys) (acc, flag)).2 =
        (flag || gs.any (fun g => decide (1 < g.2.length))) := by
  intro gs
  induction gs with
  | nil => intro cmKeys acc flag; simp
  | cons g0 rest ih =>
      intro cmKeys acc flag
      simp only [List.foldl_cons, List.any_cons]
      by_cases hm : 1 < g0.2.length
      · have hstep : repairStep cmKeys (acc, flag) g0 =
            (dictDel (dictUpsert acc (renameTarget cmKeys g0)
              ((dictLookup acc g0.2.headI).getD 0)) g0.2.headI, true) := by
          simp [repairStep, hm, renameTarget]
        rw [hstep, ih]
        simp [hm]
      · have hstep : repairStep cmKeys (acc, flag) g0 = (acc, flag) := by
          simp [repairStep, hm]
        rw [hstep, ih]
        simp [hm]

/-- The first element of a nonempty list is a member. -/
theorem headI_mem_of_ne_nil {α : Type} [Inhabited α] (l : List α)
    (h : l ≠ []) : l.headI ∈ l := by
  cases l with
  | nil => exact absurd rfl h
  | cons a rest => exact List.mem_cons_self _ _

/-- Distinctness transfer: a duplicate-free image of the filtered list
gives the pairwise disequality over the whole list. -/
theorem pairwise_of_nodup_filter_map {α β : Type}
    (l : List α) (p : α → Bool) (f : α → β)
    (h : ((l.filter p).map f).Nodup) :
    l.Pairwise (fun a b => p a = true → p b = true → ¬ f a = f b) := by
  induction l with
  | nil => exact List.Pairwise.nil
  | cons a rest ih =>
      by_cases hp : p a = true
      · rw [List.filter_cons_of_pos hp, List.map_cons] at h
        rcases List.nodup_cons.mp h with ⟨hnotin, hrest⟩
        refine List.pairwise_cons.mpr ⟨?_, ih hrest⟩
        intro b hb _ hpb he
        exact hnotin (he ▸ List.mem_map_of_mem f (List.mem_filter.mpr ⟨hb, hpb⟩))
      · rw [List.filter_cons_of_neg (by simpa using hp)] at h
        refine List.pairwise_cons.mpr ⟨?_, ih h⟩
        intro b _ hpa
        exact absurd hpa hp

/-- C4 (amended): in each case-collision group the code renames exactly
the *first* member (not all but the first): its binding disappears, and
`first + suffix` carries its value, where the suffix is the smallest
positive integer whose lowercased candidate avoids every `catmap` key
(every smaller positive suffix collides); every other name — the
remaining members of colliding groups included — keeps its binding; the
update is persisted (`cats_changed`) exactly when some group has more
than one member.  The pairwise-distinctness hypothesis on the rename
targets rules out the degenerate nested-suffix inputs where two groups
rename to the same name. -/
theorem repair_user_categories_renames_first_member
    (ucs : List (List Char × Nat))
    (htgt : (((buildCatmap (ucs.map Prod.fst)).filter
          (fun g => decide (1 < g.2.length))).map
        (renameTarget ((buildCatmap (ucs.map Prod.fst)).map Prod.fst))).Nodup) :
    (∀ g ∈ buildCatmap (ucs.map Prod.fst), 1 < g.2.length →
      dictLookup (repair_user_categories ucs).1 g.2.headI = none ∧
      dictLookup (repair_user_categories ucs).1
          (renameTarget ((buildCatmap (ucs.map Prod.fst)).map Prod.fst) g) =
        dictLookup ucs g.2.headI ∧
      ((buildCatmap (ucs.map Prod.fst)).map Prod.fst).contains
        (icu_lower (renameTarget
          ((buildCatmap (ucs.map Prod.fst)).map Prod.fst) g)) = false ∧
      1 ≤ findSuffix ((buildCatmap (ucs.map Prod.fst)).map Prod.fst) g.2.headI ∧
      (∀ j, 1 ≤ j →
        j < findSuffix ((buildCatmap (ucs.map Prod.fst)).map Prod.fst)
          g.2.headI →
        ((buildCatmap (ucs.map Prod.fst)).map Prod.fst).contains
          (icu_lower (g.2.headI ++ natChars j)) = true)) ∧
    (∀ u ∈ ucs.map Prod.fst,
      (∀ g ∈ buildCatmap (ucs.map Prod.fst), 1 < g.2.length →
        ¬ g.2.headI = u) →
      dictLookup (repair_user_categories ucs).1 u = dictLookup ucs u) ∧
    ((repair_user_categories ucs).2 = true ↔
      ∃ g ∈ buildCatmap (ucs.map Prod.fst), 1 < g.2.length) := by
  have hinv := buildCatmap_inv (ucs.map Prod.fst) [] (ucs.map Prod.fst)
    (by intro p hp; cases hp) (fun x hx => hx)
  have hnodupK : ((buildCatmap (ucs.map Prod.fst)).map Prod.fst).Nodup :=
    buildCatmap_keys_nodup (ucs.map Prod.fst) [] (by simp)
  have hclassK : ∀ u ∈ ucs.map Prod.fst,
      icu_lower u ∈ (buildCatmap (ucs.map Prod.fst)).map Prod.fst :=
    fun u hu => buildCatmap_class_mem (ucs.map Prod.fst) [] u hu
  have hhead : ∀ g ∈ buildCatmap (ucs.map Prod.fst),
      icu_lower g.2.headI = g.1 ∧ g.2.headI ∈ ucs.map Prod.fst := by
    intro g hg
    rcases hinv g hg with ⟨h1, h2, h3⟩
    have hm := headI_mem_of_ne_nil g.2 h2
    exact ⟨h1 _ hm, h3 _ hm⟩
  have htnotmem : ∀ g ∈ buildCatmap (ucs.map Prod.fst),
      icu_lower (renameTarget ((buildCatmap (ucs.map Prod.fst)).map Prod.fst) g)
        ∉ (buildCatmap (ucs.map Prod.fst)).map Prod.fst := by
    intro g hg hmem
    have h2 : ((buildCatmap (ucs.map Prod.fst)).map Prod.fst).contains
        (icu_lower (g.2.headI ++ natChars
          (findSuffix ((buildCatmap (ucs.map Prod.fst)).map Prod.fst)
            g.2.headI))) = true := List.elem_iff.mpr hmem
    rw [findSuffix_free ((buildCatmap (ucs.map Prod.fst)).map Prod.fst)
      g.2.headI] at h2
    cases h2
  have hp2 : ∀ g1 ∈ buildCatmap (ucs.map Prod.fst),
      ∀ g2 ∈ buildCatmap (ucs.map Prod.fst),
      1 < g1.2.length → 1 < g2.2.length →
      ¬ renameTarget ((buildCatmap (ucs.map Prod.fst)).map Prod.fst) g1 =
        g2.2.headI := by
    intro g1 hg1 g2 hg2 _ _ he
    apply htnotmem g1 hg1
    rw [he, (hhead g2 hg2).1]
    exact List.mem_map_of_mem Prod.fst hg2
  have hp1 : (buildCatmap (ucs.map Prod.fst)).Pairwise
      (fun g1 g2 => 1 < g1.2.length → 1 < g2.2.length →
        ¬ g1.2.headI = g2.2.headI ∧
        ¬ renameTarget ((buildCatmap (ucs.map Prod.fst)).map Prod.fst) g1 =
          renameTarget ((buildCatmap (ucs.map Prod.fst)).map Prod.fst) g2) := by
    have hA : (buildCatmap (ucs.map Prod.fst)).Pairwise
        (fun a b => a.1 ≠ b.1) := List.pairwise_map.mp hnodupK
    have hB := pairwise_of_nodup_filter_map (buildCatmap (ucs.map Prod.fst))
      (fun g => decide (1 < g.2.length))
      (renameTarget ((buildCatmap (ucs.map Prod.fst)).map Prod.fst)) htgt
    refine (hA.and hB).imp_of_mem ?_
    intro a b ha hb hab
    intro hma hmb
    refine ⟨?_, hab.2 (by simpa using hma) (by simpa using hmb)⟩
    intro he
    apply hab.1
    rw [← (hhead a ha).1, ← (hhead b hb).1, he]
  have hreq : repair_user_categories ucs =
      (buildCatmap (ucs.map Prod.fst)).foldl
        (repairStep ((buildCatmap (ucs.map Prod.fst)).map Prod.fst))
        (ucs, false) := rfl
  refine ⟨?_, ?_, ?_⟩
  · intro g hg hgm
    rw [hreq]
    have hM := repair_fold_multi (buildCatmap (ucs.map Prod.fst))
      ((buildCatmap (ucs.map Prod.fst)).map Prod.fst) ucs false g hg hgm hp1 hp2
    rcases dictLookup_isSome_of_mem ucs g.2.headI (hhead g hg).2 with ⟨v, hv⟩
    refine ⟨hM.1, ?_, findSuffix_free _ _,
      findSuffixAux_ge _ _ _ _, ?_⟩
    · rw [hM.2, hv]
      rfl
    · intro j h1 h2
      exact findSuffixAux_before _ _ _ _ j h1 h2
  · intro u hu hnh
    have hulower := hclassK u hu
    rw [hreq]
    refine repair_fold_frame (buildCatmap (ucs.map Prod.fst))
      ((buildCatmap (ucs.map Prod.fst)).map Prod.fst) ucs false u hnh ?_
    intro g hg hgm he
    exact htnotmem g hg (he ▸ hulower)
  · rw [hreq, repair_fold_flag]
    simp [List.any_eq_true]

/-- C4 (counterexample): for the two-name collision `{'Foo': 1, 'foo': 2}`
the code renames the *first* colliding name `'Foo'` (to `'Foo1'`) and
keeps `'foo'`, so the claim's "rename all but the first" — which would
keep `'Foo'` — is false; the second conjunct shows the exact result the
code computes. -/
theorem repair_user_categories_first_not_kept :
    ¬ firstOfGroupKept [(("Foo").toList, 1), (("foo").toList, 2)] ∧
    repair_user_categories [(("Foo").toList, 1), (("foo").toList, 2)] =
      ([(("foo").toList, 2), (("Foo1").toList, 1)], true) := by
  exact ⟨by decide, by decide⟩

/-- Witness for C4 at the concrete two-name collision: the first member's
binding is gone after the repair. -/
theorem repair_user_categories_renames_first_member_witness :
    dictLookup
      (repair_user_categories [(("Foo").toList, 1), (("foo").toList, 2)]).1
      ("Foo").toList = none := by
  have h := repair_user_categories_renames_first_member
    [(("Foo").toList, 1), (("foo").toList, 2)] (by decide)
  exact (h.1 (("foo").toList, [("Foo").toList, ("foo").toList])
    (by decide) (by decide)).1

/-- Concatenating the streamed chunks recovers the file content. -/
theorem readChunksA_concat (spool : Nat) (hs : 0 < spool) :
    ∀ (fuel : Nat) (content : List Nat) (acc : List Nat),
      content.length ≤ fuel →
      (readChunksA spool fuel content).foldl (fun a c => a ++ c) acc =
        acc ++ content := by
  intro fuel
  induction fuel with
  | zero => intro content acc _; simp [readChunksA]
  | succ f ih =>
      intro content acc hlen
      simp only [readChunksA]
      by_cases hshort : content.length < spool
      · rw [if_pos hshort]
        simp
      · rw [if_neg hshort]
        simp only [List.foldl_cons]
        rw [ih (content.drop spool) (acc ++ content.take spool) (by
          simp only [List.length_drop]
          omega)]
        rw [List.append_assoc, List.take_append_drop]

/-- The accumulated `sha.update` input equals the file content. -/
theorem hashUpdates_readChunks (spool : Nat) (hs : 0 < spool)
    (content : List Nat) :
    hashUpdates (readChunks spool content) = content := by
  have := readChunksA_concat spool hs content.length content []
    (Nat.le_refl _)
  simpa [hashUpdates, readChunks] using this

/-- C7: `format_hash` returns the SHA-256 hex digest of the resolved
file's byte content — the streamed fixed-size chunks concatenate back to
the whole content, so the digest is a function of the bytes alone (hence
deterministic) — and it raises `NoSuchFormat` exactly when
`format_abspath` resolves no file; the implementation agrees with the
FIPS 180-4 reference value on the byte sequence `"abc"`. -/
theorem format_hash_sha256 (spool : Nat) (hs : 0 < spool)
    (fs : List (List Char × List Nat)) (library path fname fmt : List Char) :
    (∀ pc, format_abspath fs library path fname fmt = some pc →
      format_hash spool fs library path fname fmt = .ok (sha256hex pc.2)) ∧
    (format_hash spool fs library path fname fmt = .error () ↔
      format_abspath fs library path fname fmt = none) ∧
    sha256hex [97, 98, 99] =
      ("ba7816bf8f01cfea414140de5dae2223b00361a396177a9cb410ff61f20015ad").toList := by
  refine ⟨?_, ?_, by rfl⟩
  · intro pc hpc
    simp only [format_hash, hpc]
    rw [hashUpdates_readChunks spool hs]
  · constructor
    · intro h
      cases hab : format_abspath fs library path fname fmt with
      | none => rfl
      | some pc =>
          simp only [format_hash, hab] at h
          cases h
    · intro h
      simp only [format_hash, h]

/-- Witness for C7 at a concrete one-file library with chunk size 7. -/
theorem format_hash_sha256_witness :
    format_hash 7 [(("L/p/f.e").toList, [97, 98, 99])] ("L").toList
      ("p").toList ("f").toList ("E").toList = .ok (sha256hex [97, 98, 99]) := by
  have h := format_hash_sha256 7 (by decide)
    [(("L/p/f.e").toList, [97, 98, 99])] ("L").toList ("p").toList
    ("f").toList ("E").toList
  exact h.1 (("L/p/f.e").toList, [97, 98, 99]) (by rfl)

/-- If the copy loop reports success, no format copy raised. -/
theorem copyFormatsLoop_ok (env : UPEnv) (tpath fname : List Char) :
    ∀ formats : List (List Char),
      (copyFormatsLoop env tpath fname formats).2 = true →
      ∀ fmt ∈ formats, env.fmtRaises fmt = false := by
  intro formats
  induction formats with
  | nil => intro _ fmt hf; cases hf
  | cons f fs ih =>
      intro hok fmt hf
      by_cases hr : env.fmtRaises f = true
      · simp [copyFormatsLoop, hr] at hok
      · simp only [copyFormatsLoop] at hok
        rw [if_neg (by simpa using hr)] at hok
        rcases List.mem_cons.mp hf with rfl | hf'
        · simpa using hr
        · exact ih (by simpa using hok) fmt hf'

/-- The copy loop emits only `copyFormat` operations. -/
theorem copyFormatsLoop_ops (env : UPEnv) (tpath fname : List Char) :
    ∀ (formats : List (List Char)) (op : FsOp),
      op ∈ (copyFormatsLoop env tpath fname formats).1 →
      ∃ f d, op = .copyFormat f d := by
  intro formats
  induction formats with
  | nil => intro op hop; cases hop
  | cons f fs ih =>
      intro op hop
      by_cases hr : env.fmtRaises f = true
      · simp only [copyFormatsLoop] at hop
        rw [if_pos hr] at hop
        simp only [List.mem_singleton] at hop
        exact ⟨f, _, hop⟩
      · simp only [copyFormatsLoop] at hop
        rw [if_neg (by simpa using hr)] at hop
        rcases List.mem_cons.mp hop with rfl | hop'
        · exact ⟨f, _, rfl⟩
        · exact ih op hop'

/-- Migration emits only cover/format copy attempts. -/
theorem migrateFiles_ops (env : UPEnv) (spath tpath fname : List Char)
    (formats : List (List Char)) (source_ok : Bool) (op : FsOp)
    (hop : op ∈ (migrateFiles env spath tpath fname formats source_ok).2) :
    (∃ s d, op = .copyCover s d) ∨ ∃ f d, op = .copyFormat f d := by
  cases source_ok with
  | false => simp [migrateFiles] at hop
  | true =>
      unfold migrateFiles at hop
      rw [if_pos rfl] at hop
      by_cases hcr : env.coverRaises = true
      · rw [if_pos hcr] at hop
        simp only [List.mem_singleton] at hop
        exact Or.inl ⟨_, _, hop⟩
      · rw [if_neg hcr] at hop
        dsimp only [] at hop
        rcases List.mem_cons.mp hop with rfl | hop'
        · exact Or.inl ⟨_, _, rfl⟩
        · exact Or.inr (copyFormatsLoop_ops env tpath fname formats op hop')

/-- A clean migration over an existing source means no copy raised. -/
theorem migrateFiles_ok (env : UPEnv) (spath tpath fname : List Char)
    (formats : List (List Char))
    (h : (migrateFiles env spath tpath fname formats true).1 = none) :
    env.coverRaises = false ∧ ∀ fmt ∈ formats, env.fmtRaises fmt = false := by
  unfold migrateFiles at h
  rw [if_pos rfl] at h
  by_cases hcr : env.coverRaises = true
  · rw [if_pos hcr] at h
    simp at h
  · rw [if_neg hcr] at h
    dsimp only [] at h
    by_cases hok : (copyFormatsLoop env tpath fname formats).2 = true
    · exact ⟨by simpa using hcr, copyFormatsLoop_ok env tpath fname formats hok⟩
    · rw [if_neg hok] at h
      simp at h

/-- C2: if any cover/format copy raises during `update_path`, the stored
metadata (path and format stems) is returned unchanged and the trace
contains no tree deletion and no rename — the source directory is never
deleted or renamed, and only copy attempts into the target directory
occurred; conversely, whenever the call returns normally having changed
the metadata while a source directory existed, no copy raised (the
metadata write happens only after all copies). -/
theorem update_path_no_partial_migration
    (af : List Char → List Char) (unknown : List Char)
    (iswindows caseSensitive : Bool) (env : UPEnv) (library : List Char)
    (book_id : Nat) (title author : List Char) (formats : List (List Char))
    (db : UPDb) :
    (∀ e, (update_path af unknown iswindows caseSensitive env library book_id
        title author formats db).1.1 = some e →
      (update_path af unknown iswindows caseSensitive env library book_id
        title author formats db).1.2 = db ∧
      (∀ p, FsOp.rmtree p ∉ (update_path af unknown iswindows caseSensitive
        env library book_id title author formats db).2) ∧
      (∀ s d, FsOp.rename s d ∉ (update_path af unknown iswindows caseSensitive
        env library book_id title author formats db).2)) ∧
    ((update_path af unknown iswindows caseSensitive env library book_id
        title author formats db).1.1 = none →
      ¬ (update_path af unknown iswindows caseSensitive env library book_id
        title author formats db).1.2 = db →
      ¬ db.path = [] → env.sourceExists = true →
      env.coverRaises = false ∧ ∀ fmt ∈ formats, env.fmtRaises fmt = false) := by
  cases hc : construct_path_name af unknown iswindows book_id title author with
  | error e0 => simp [update_path, hc]
  | ok path =>
      by_cases hfast : path = db.path ∧
          fmtChanged db (construct_file_name af iswindows book_id title author)
            formats = false
      · simp only [update_path, hc]
        rw [if_pos hfast]
        simp
      · simp only [update_path, hc]
        rw [if_neg hfast]
        rcases hmig : migrateFiles env (library ++ '/' :: db.path)
            (library ++ '/' :: path)
            (construct_file_name af iswindows book_id title author) formats
            (decide ¬ db.path = [] && env.sourceExists) with ⟨merr, mops⟩
        cases merr with
        | some e' =>
            constructor
            · intro e he
              refine ⟨rfl, ?_, ?_⟩
              · intro p hp
                rcases List.mem_append.mp hp with hp' | hp'
                · by_cases ht : env.tpathExists = true <;> simp [ht] at hp'
                · rcases migrateFiles_ops env _ _ _ formats _ _
                      (by rw [hmig]; exact hp') with ⟨s, d, hop⟩ | ⟨f, d, hop⟩ <;>
                    cases hop
              · intro s d hp
                rcases List.mem_append.mp hp with hp' | hp'
                · by_cases ht : env.tpathExists = true <;> simp [ht] at hp'
                · rcases migrateFiles_ops env _ _ _ formats _ _
                      (by rw [hmig]; exact hp') with ⟨s', d', hop⟩ | ⟨f', d', hop⟩ <;>
                    cases hop
            · intro h1
              cases h1
        | none =>
            constructor
            · intro e he
              cases he
            · intro _ _ hne hse
              have hso : (decide ¬ db.path = [] && env.sourceExists) = true := by
                simp [hne, hse]
              rw [hso] at hmig
              exact migrateFiles_ok env _ _ _ formats (by rw [hmig])

/-- Witness for C2: a failing cover copy leaves the stored metadata
unchanged. -/
theorem update_path_no_partial_migration_witness :
    (update_path (fun s => s) ("Unknown").toList false true
      ⟨true, false, true, fun _ => false, true, false, false, fun _ => false⟩
      ("/L").toList 1 ("T").toList ("A").toList [("EPUB").toList]
      ⟨("A/Old (1)").toList, []⟩).1.2 = ⟨("A/Old (1)").toList, []⟩ := by
  have h := update_path_no_partial_migration (fun s => s) ("Unknown").toList
    false true
    ⟨true, false, true, fun _ => false, true, false, false, fun _ => false⟩
    ("/L").toList 1 ("T").toList ("A").toList [("EPUB").toList]
    ⟨("A/Old (1)").toList, []⟩
  exact (h.1 .ioError (by rfl)).1

/-- Folding stem updates over unrelated keys changes nothing. -/
theorem foldl_upsert_lookup_unrelated :
    ∀ (fs : List (List Char)) (m : List (List Char × List Char))
      (fname k : List Char), k ∉ fs →
      dictLookup (fs.foldl (fun m' f => dictUpsert m' f fname) m) k =
        dictLookup m k := by
  intro fs
  induction fs with
  | nil => intro m fname k _; rfl
  | cons f rest ih =>
      intro m fname k hk
      simp only [List.foldl_cons]
      rw [ih _ fname k (fun hm => hk (List.mem_cons_of_mem _ hm))]
      exact dictLookup_upsert_other m f k fname
        (fun he => hk (he ▸ List.mem_cons_self _ _))

/-- After the stem-update loop every attached format maps to the new
stem. -/
theorem foldl_upsert_lookup_mem :
    ∀ (fs : List (List Char)) (m : List (List Char × List Char))
      (fname k : List Char), k ∈ fs →
      dictLookup (fs.foldl (fun m' f => dictUpsert m' f fname) m) k =
        some fname := by
  intro fs
  induction fs with
  | nil => intro m fname k hk; cases hk
  | cons f rest ih =>
      intro m fname k hk
      simp only [List.foldl_cons]
      by_cases hmem : k ∈ rest
      · exact ih _ fname k hmem
      · rcases List.mem_cons.mp hk with rfl | h'
        · rw [foldl_upsert_lookup_unrelated rest _ fname k hmem]
          exact dictLookup_upsert_self m k fname
        · exact absurd h' hmem

/-- Unchanged stems make the change test false. -/
theorem fmtChanged_false_of_stems (db : UPDb) (fname : List Char)
    (formats : List (List Char))
    (h : ∀ fmt ∈ formats, dictLookup db.fnames fmt = some fname) :
    fmtChanged db fname formats = false := by
  simp only [fmtChanged, List.any_eq_false]
  intro fmt hf
  rw [h fmt hf]
  simp

/-- C5: if the computed path equals the stored path and the computed stem
equals every stored format stem, `update_path` returns before any
filesystem operation (empty trace, database untouched); consequently a
second call right after any successful call — with title, author and
format set unchanged — performs zero filesystem writes. -/
theorem update_path_idempotent
    (af : List Char → List Char) (unknown : List Char)
    (iswindows caseSensitive : Bool) (env env2 : UPEnv) (library : List Char)
    (book_id : Nat) (title author : List Char) (formats : List (List Char))
    (db : UPDb) :
    ((construct_path_name af unknown iswindows book_id title author =
        .ok db.path →
      (∀ fmt ∈ formats, dictLookup db.fnames fmt =
        some (construct_file_name af iswindows book_id title author)) →
      update_path af unknown iswindows caseSensitive env library book_id
        title author formats db = ((none, db), [])) ∧
    (∀ db', (update_path af unknown iswindows caseSensitive env library
        book_id title author formats db).1 = (none, db') →
      update_path af unknown iswindows caseSensitive env2 library book_id
        title author formats db' = ((none, db'), []))) := by
  constructor
  · intro hpath hstems
    simp only [update_path, hpath]
    simp [fmtChanged_false_of_stems db _ formats hstems]
  · intro db' hdb'
    cases hc : construct_path_name af unknown iswindows book_id title author with
    | error e0 =>
        simp only [update_path, hc] at hdb'
        cases hdb'
    | ok path =>
        by_cases hfast : path = db.path ∧
            fmtChanged db (construct_file_name af iswindows book_id title author)
              formats = false
        · simp only [update_path, hc] at hdb'
          rw [if_pos hfast] at hdb'
          have hdbeq : db' = db := by
            have := congrArg Prod.snd hdb'
            simpa using this.symm
          subst hdbeq
          simp only [update_path, hc]
          rw [if_pos hfast]
        · simp only [update_path, hc] at hdb'
          rw [if_neg hfast] at hdb'
          rcases hmig : migrateFiles env (library ++ '/' :: db.path)
              (library ++ '/' :: path)
              (construct_file_name af iswindows book_id title author) formats
              (decide ¬ db.path = [] && env.sourceExists) with ⟨merr, mops⟩
          rw [hmig] at hdb'
          cases merr with
          | some e' => cases congrArg Prod.fst hdb'
          | none =>
              have hdbeq : db' =
                  { path := path,
                    fnames := formats.foldl (fun m fmt => dictUpsert m fmt
                      (construct_file_name af iswindows book_id title author))
                      db.fnames } := by
                have := congrArg Prod.snd hdb'
                simpa using this.symm
              subst hdbeq
              simp only [update_path, hc]
              have hstems2 := fmtChanged_false_of_stems
                { path := path,
                  fnames := formats.foldl (fun m fmt => dictUpsert m fmt
                    (construct_file_name af iswindows book_id title author))
                    db.fnames }
                (construct_file_name af iswindows book_id title author) formats
                (fun fmt hf => foldl_upsert_lookup_mem formats db.fnames _ fmt hf)
              simp [hstems2]

/-- Witness for C5 at a concrete synced record: the call is a no-op with
an empty trace. -/
theorem update_path_idempotent_witness :
    update_path (fun s => s) ("Unknown").toList false true
      ⟨true, true, false, fun _ => false, true, false, false, fun _ => false⟩
      ("/L").toList 2 ("T").toList ("A").toList [("EPUB").toList]
      ⟨("A/T (2)").toList, [(("EPUB").toList, ("T - A").toList)]⟩ =
      ((none, ⟨("A/T (2)").toList, [(("EPUB").toList, ("T - A").toList)]⟩), []) := by
  have h := update_path_idempotent (fun s => s) ("Unknown").toList false true
      ⟨true, true, false, fun _ => false, true, false, false, fun _ => false⟩
      ⟨true, true, false, fun _ => false, true, false, false, fun _ => false⟩
      ("/L").toList 2 ("T").toList ("A").toList [("EPUB").toList]
      ⟨("A/T (2)").toList, [(("EPUB").toList, ("T - A").toList)]⟩
  exact h.1 (by rfl) (by decide)

/-- Scanner whitespace skipping passes over an all-whitespace prefix. -/
theorem skipWs_append (ws t : List Char) (h : ws.all isWsCh = true) :
    skipWs (ws ++ t) = skipWs t := by
  induction ws with
  | nil => rfl
  | cons c cs ih =>
      rw [List.all_cons, Bool.and_eq_true] at h
      simp only [List.cons_append, skipWs, List.dropWhile_cons, h.1, if_true]
      exact ih h.2

/-- A non-whitespace head stops the whitespace skip. -/
theorem skipWs_cons_false (c : Char) (t : List Char) (h : isWsCh c = false) :
    skipWs (c :: t) = c :: t := by
  simp [skipWs, List.dropWhile_cons, h]

/-- Indentation is whitespace. -/
theorem jIndent_ws (lvl : Nat) : (jIndent lvl).all isWsCh = true := by
  simp only [jIndent, List.all_eq_true]
  intro c hc
  rw [List.eq_of_mem_replicate hc]
  decide

/-- Hex digits round-trip for a bounded value, bundled for `decide`. -/
theorem hexDig_facts : ∀ m, m < 16 →
    isHexCh (hexDig m) = true ∧ hexVal (hexDig m) = m := by
  decide

/-- `parseHex4` inverts `hex4` below `2^16`. -/
theorem parseHex4_hex4 (n : Nat) (rest : List Char) (h : n < 65536) :
    parseHex4 (hex4 n ++ rest) = some (n, rest) := by
  have h3 : n / 4096 % 16 < 16 := Nat.mod_lt _ (by omega)
  have h2 : n / 256 % 16 < 16 := Nat.mod_lt _ (by omega)
  have h1 : n / 16 % 16 < 16 := Nat.mod_lt _ (by omega)
  have h0 : n % 16 < 16 := Nat.mod_lt _ (by omega)
  simp only [hex4, List.cons_append, List.nil_append, parseHex4]
  rw [if_pos ⟨(hexDig_facts _ h3).1, (hexDig_facts _ h2).1,
    (hexDig_facts _ h1).1, (hexDig_facts _ h0).1⟩]
  rw [(hexDig_facts _ h3).2, (hexDig_facts _ h2).2,
    (hexDig_facts _ h1).2, (hexDig_facts _ h0).2]
  have : ((n / 4096 % 16 * 16 + n / 256 % 16) * 16 + n / 16 % 16) * 16 +
      n % 16 = n := by omega
  rw [this]

/-- Digit expansions are nonempty and start with a digit. -/
theorem natChars_head (n : Nat) :
    ∃ d t, natChars n = d :: t ∧ isDigitCh d = true := by
  have hne : ∀ f m, natCharsA f m ≠ [] := by
    intro f
    cases f with
    | zero => intro m h; cases h
    | succ f' =>
        intro m
        simp only [natCharsA]
        by_cases hm : m < 10
        · rw [if_pos hm]; intro h; cases h
        · rw [if_neg hm]; intro h
          rcases List.append_eq_nil.mp h with ⟨_, h2⟩
          cases h2
  cases hd : natChars n with
  | nil => exact absurd hd (hne n n)
  | cons d t =>
      have hmem : d ∈ natChars n := hd ▸ List.mem_cons_self _ _
      rcases natCharsA_digits n n (Nat.le_refl n) d hmem with ⟨m, hm, rfl⟩
      exact ⟨digitCh m, t, rfl, (digitCh_facts m hm).1⟩

/-- `takeWhile`/`dropWhile` across a fully satisfying prefix. -/
theorem takeWhile_dropWhile_append (p : Char → Bool) :
    ∀ (l t : List Char), (∀ c ∈ l, p c = true) →
      (∀ c, t.head? = some c → p c = false) →
      (l ++ t).takeWhile p = l ∧ (l ++ t).dropWhile p = t := by
  intro l
  induction l with
  | nil =>
      intro t _ ht
      cases t with
      | nil => exact ⟨rfl, rfl⟩
      | cons c r =>
          simp [List.takeWhile_cons, List.dropWhile_cons, ht c rfl]
  | cons c cs ih =>
      intro t hl ht
      have hc : p c = true := hl c (List.mem_cons_self _ _)
      have := ih t (fun x hx => hl x (List.mem_cons_of_mem _ hx)) ht
      simp only [List.cons_append, List.takeWhile_cons, List.dropWhile_cons,
        hc, if_true]
      exact ⟨by rw [this.1], this.2⟩

/-- The number scanner inverts the printer when no digit follows. -/
theorem parseNum_pp (n : Int) (rest : List Char)
    (h : headIsDigit rest = false) :
    parseNum (ppInt n ++ rest) = some (.num n, rest) := by
  have hdigits : ∀ c ∈ natChars n.natAbs, isDigitCh c = true := by
    intro c hc
    rcases natCharsA_digits n.natAbs n.natAbs (Nat.le_refl _) c hc with ⟨d, hd, rfl⟩
    exact (digitCh_facts d hd).1
  have hrest : ∀ c, rest.head? = some c → isDigitCh c = false := by
    intro c hc
    cases rest with
    | nil => cases hc
    | cons c0 r =>
        cases hc
        simpa [headIsDigit] using h
  have htd := takeWhile_dropWhile_append isDigitCh (natChars n.natAbs) rest
    hdigits hrest
  rcases natChars_head n.natAbs with ⟨d, t, hnat, hd⟩
  have hnonempty : ¬ natChars n.natAbs = [] := by
    rw [hnat]
    intro hx
    cases hx
  by_cases hneg : n < 0
  · have hpp : ppInt n = '-' :: natChars n.natAbs := by simp [ppInt, hneg]
    have hdash : parseNum.headDash ('-' :: (natChars n.natAbs ++ rest)) = true := by
      simp [parseNum.headDash]
    have hval : -((digitsVal (natChars n.natAbs) : Nat) : Int) = n := by
      rw [digitsVal_natChars]
      omega
    rw [hpp, List.cons_append]
    simp only [parseNum, hdash, if_true, List.tail_cons, htd.1, htd.2]
    rw [if_neg hnonempty, hval]
  · have hpp : ppInt n = natChars n.natAbs := by simp [ppInt, hneg]
    have hdnotdash : ¬ d = '-' := by
      intro hx
      rw [hx] at hd
      cases hd
    have hdash : parseNum.headDash (natChars n.natAbs ++ rest) = false := by
      rw [hnat, List.cons_append]
      simp [parseNum.headDash, hdnotdash]
    have hval : ((digitsVal (natChars n.natAbs) : Nat) : Int) = n := by
      rw [digitsVal_natChars]
      omega
    rw [hpp]
    simp only [parseNum, hdash, Bool.false_eq_true, if_false, htd.1, htd.2]
    rw [if_neg hnonempty, hval]

/-- Unicode scalar values are below `0x110000` and skip the surrogates. -/
theorem char_toNat_valid (c : Char) :
    c.toNat < 1114112 ∧ ¬ (55296 ≤ c.toNat ∧ c.toNat < 57344) := by
  have h := c.valid
  unfold Nat.isValidChar UInt32.isValidChar at h
  have hv : c.toNat = c.val.toNat := rfl
  rw [hv]
  rcases h with h | h <;> omega

/-- Every escape expansion is nonempty. -/
theorem escChar_length_pos (c : Char) : 1 ≤ (escChar c).length := by
  unfold escChar
  split_ifs <;> simp

/-- Escaping never shortens a string. -/
theorem ppStrBody_length_ge (s : List Char) : s.length ≤ (ppStrBody s).length := by
  induction s with
  | nil => simp [ppStrBody]
  | cons c cs ih =>
      simp only [ppStrBody, List.length_append, List.length_cons]
      have := escChar_length_pos c
      omega

/-- Scanner whitespace is never a digit. -/
theorem ws_not_digit (a : Char) (h : isWsCh a = true) : isDigitCh a = false := by
  have hx : a = ' ' ∨ a = '\t' ∨ a = '\n' ∨ a = '\r' := by
    simpa [isWsCh] using h
  rcases hx with rfl | rfl | rfl | rfl <;> decide

/-- Unfolding equation for the residual-digit test. -/
theorem headIsDigit_cons (c : Char) (r : List Char) :
    headIsDigit (c :: r) = isDigitCh c := rfl

/-- A whitespace run followed by a non-digit never starts with a digit. -/
theorem headIsDigit_ws_append (tws : List Char) (c : Char) (r : List Char)
    (h : tws.all isWsCh = true) (hc : isDigitCh c = false) :
    headIsDigit (tws ++ c :: r) = false := by
  cases tws with
  | nil => simpa [headIsDigit_cons] using hc
  | cons a t =>
      rw [List.all_cons, Bool.and_eq_true] at h
      rw [List.cons_append, headIsDigit_cons]
      exact ws_not_digit a h.1

/-- A decimal digit is not whitespace and not a structural character. -/
theorem digit_char_facts (d : Char) (h : isDigitCh d = true) :
    isWsCh d = false ∧ ¬ d = 'n' ∧ ¬ d = 't' ∧ ¬ d = 'f' ∧ ¬ d = '"' ∧
      ¬ d = '[' ∧ ¬ d = Char.ofNat 123 ∧ ¬ d = ']' ∧ ¬ d = Char.ofNat 125 := by
  have hb : 48 ≤ d.toNat ∧ d.toNat ≤ 57 := by simpa [isDigitCh] using h
  have hne : ∀ e : Char, ¬ (48 ≤ e.toNat ∧ e.toNat ≤ 57) → ¬ d = e := by
    intro e he hd
    rw [hd] at hb
    exact he hb
  refine ⟨?_, hne _ (by decide), hne _ (by decide), hne _ (by decide),
    hne _ (by decide), hne _ (by decide), hne _ (by decide),
    hne _ (by decide), hne _ (by decide)⟩
  have hw : ¬ (d = ' ' ∨ d = '\t' ∨ d = '\n' ∨ d = '\r') := by
    rintro (rfl | rfl | rfl | rfl) <;> revert hb <;> decide
  simp [isWsCh, hw]

/-- Every printed value starts with a non-whitespace character that is not
a closing bracket or closing brace. -/
theorem ppVal_head (lvl : Nat) (v : JVal) :
    ∃ c t, ppVal lvl v = c :: t ∧ isWsCh c = false ∧ ¬ c = ']' ∧
      ¬ c = Char.ofNat 125 := by
  cases v with
  | null => exact ⟨'n', ['u', 'l', 'l'], by simp [ppVal], by decide, by decide, by decide⟩
  | bool b => cases b with
      | true => exact ⟨'t', ['r', 'u', 'e'], by simp [ppVal], by decide, by decide, by decide⟩
      | false => exact ⟨'f', ['a', 'l', 's', 'e'], by simp [ppVal], by decide, by decide, by decide⟩
  | num n =>
      rcases natChars_head n.natAbs with ⟨d, t, hnat, hd⟩
      rcases digit_char_facts d hd with ⟨hw, _, _, _, _, _, _, h8, h9⟩
      by_cases hneg : n < 0
      · refine ⟨'-', natChars n.natAbs, ?_, by decide, by decide, by decide⟩
        simp [ppVal, ppInt, hneg]
      · refine ⟨d, t, ?_, hw, h8, h9⟩
        simp [ppVal, ppInt, hneg, hnat]
  | str s =>
      exact ⟨'"', ppStrBody s ++ ['"'], by simp [ppVal], by decide, by decide,
        by decide⟩
  | arr xs =>
      cases xs with
      | nil => exact ⟨'[', [']'], by simp [ppVal], by decide, by decide, by decide⟩
      | cons x rest =>
          exact ⟨'[', '\n' :: ppArrItems (lvl + 1) x rest ++
            '\n' :: jIndent lvl ++ [']'], by simp [ppVal], by decide, by decide,
            by decide⟩
  | obj kvs =>
      cases kvs with
      | nil =>
          exact ⟨Char.ofNat 123, [Char.ofNat 125], by simp [ppVal], by decide,
            by decide, by decide⟩
      | cons kv rest =>
          exact ⟨Char.ofNat 123, '\n' :: ppObjItems (lvl + 1) kv rest ++
            '\n' :: jIndent lvl ++ [Char.ofNat 125], by simp [ppVal], by decide,
            by decide, by decide⟩

/-- Printed array items are an indentation run followed by a printed
value's head character. -/
theorem ppArrItems_head (lvl : Nat) (x : JVal) (xs : List JVal) :
    ∃ c t, ppArrItems lvl x xs = jIndent lvl ++ c :: t ∧ isWsCh c = false ∧
      ¬ c = ']' ∧ ¬ c = Char.ofNat 125 := by
  rcases ppVal_head lvl x with ⟨c, t, hpp, hw, h1, h2⟩
  cases xs with
  | nil => exact ⟨c, t, by simp [ppArrItems, hpp], hw, h1, h2⟩
  | cons y ys =>
      exact ⟨c, t ++ ',' :: ' ' :: '\n' :: ppArrItems lvl y ys,
        by simp [ppArrItems, hpp], hw, h1, h2⟩

/-- Printed object items are an indentation run followed by an opening
quote. -/
theorem ppObjItems_head (lvl : Nat) (kv : List Char × JVal)
    (kvs : List (List Char × JVal)) :
    ∃ t, ppObjItems lvl kv kvs = jIndent lvl ++ '"' :: t := by
  rcases kv with ⟨k, v⟩
  cases kvs with
  | nil =>
      exact ⟨ppStrBody k ++ '"' :: ':' :: ' ' :: ppVal lvl v,
        by simp [ppObjItems]⟩
  | cons kv2 rest =>
      exact ⟨ppStrBody k ++ '"' :: ':' :: ' ' ::
        (ppVal lvl v ++ ',' :: ' ' :: '\n' :: ppObjItems lvl kv2 rest),
        by simp [ppObjItems]⟩

/-- Fuel measures are positive. -/
theorem dV_pos (v : JVal) : 1 ≤ dV v := by
  cases v <;> simp [dV]

/-- Fuel measure of an item list is positive. -/
theorem dA_pos (xs : List JVal) : 1 ≤ dA xs := by
  cases xs <;> simp [dA]

/-- Fuel measure of a key-value list is positive. -/
theorem dO_pos (kvs : List (List Char × JVal)) : 1 ≤ dO kvs := by
  cases kvs with
  | nil => simp [dO]
  | cons kv rest =>
      rcases kv with ⟨k, v⟩
      simp [dO]

/-- A `\uXXXX` escape outside the high-surrogate range decodes to the
literal code point. -/
theorem parseStr_u_bmp (f n : Nat) (t : List Char) (hn : n < 65536)
    (hns : ¬ (55296 ≤ n ∧ n < 56320)) :
    parseStr (f + 1) ('\\' :: 'u' :: (hex4 n ++ t)) =
      (parseStr f t).map (fun p => (Char.ofNat n :: p.1, p.2)) := by
  simp only [parseStr]
  simp [parseHex4_hex4 n t hn, hns]

/-- A high-surrogate escape followed by a low-surrogate escape decodes to
the recombined supplementary code point. -/
theorem parseStr_u_sur (f m : Nat) (t : List Char) (hm : m < 1048576) :
    parseStr (f + 1) ('\\' :: 'u' ::
        (hex4 (55296 + m / 1024) ++
          ('\\' :: 'u' :: (hex4 (56320 + m % 1024) ++ t)))) =
      (parseStr f t).map (fun p => (Char.ofNat (65536 + m) :: p.1, p.2)) := by
  have hdiv : m / 1024 < 1024 := by omega
  have hmod : m % 1024 < 1024 := Nat.mod_lt _ (by omega)
  have h1 : 55296 + m / 1024 < 65536 := by omega
  have h2 : 56320 + m % 1024 < 65536 := by omega
  have hs1 : 55296 ≤ 55296 + m / 1024 ∧ 55296 + m / 1024 < 56320 := by omega
  have hs2 : 56320 ≤ 56320 + m % 1024 ∧ 56320 + m % 1024 < 57344 := by omega
  have harith : 65536 + (55296 + m / 1024 - 55296) * 1024 +
      (56320 + m % 1024 - 56320) = 65536 + m := by omega
  simp only [parseStr]
  simp [parseHex4_hex4 _ _ h1, parseHex4_hex4 _ _ h2, hs1, hs2, harith]
  have h3 : 65536 + m / 1024 * 1024 + m % 1024 = 65536 + m := by omega
  rw [h3]

/-- The string scanner inverts the escaping printer up to the closing
quote, leaving the tail untouched. -/
theorem parseStr_pp :
    ∀ (s : List Char) (fuel : Nat) (rest : List Char), s.length < fuel →
      parseStr fuel (ppStrBody s ++ '"' :: rest) = some (s, rest) := by
  intro s
  induction s with
  | nil =>
      intro fuel rest hf
      cases fuel with
      | zero => omega
      | succ f => simp [ppStrBody, parseStr]
  | cons c cs ih =>
      intro fuel rest hf
      cases fuel with
      | zero => omega
      | succ f =>
      have hf' : cs.length < f := by
        simp only [List.length_cons] at hf
        omega
      have IH := ih f rest hf'
      simp only [ppStrBody, List.append_assoc]
      by_cases h1 : c = '\\'
      · subst h1
        simp [escChar, parseStr, IH]
      by_cases h2 : c = '"'
      · subst h2
        simp [escChar, parseStr, IH]
      by_cases h3 : c = Char.ofNat 8
      · subst h3
        simp [escChar, parseStr, IH]
      by_cases h4 : c = Char.ofNat 12
      · subst h4
        simp [escChar, parseStr, IH]
      by_cases h5 : c = '\n'
      · subst h5
        simp [escChar, parseStr, IH]
      by_cases h6 : c = Char.ofNat 13
      · subst h6
        simp [escChar, parseStr, IH]
      by_cases h7 : c = Char.ofNat 9
      · subst h7
        simp [escChar, parseStr, IH]
      by_cases hpr : 32 ≤ c.toNat ∧ c.toNat ≤ 126
      · have he : escChar c = [c] := by
          simp only [escChar, if_neg h1, if_neg h2, if_neg h3, if_neg h4,
            if_neg h5, if_neg h6, if_neg h7, if_pos hpr]
        rw [he]
        simp only [List.singleton_append, parseStr, if_neg h2, if_neg h1,
          List.append_eq, List.nil_append]
        rw [IH]
        rfl
      by_cases hbmp : c.toNat < 65536
      · have hns : ¬ (55296 ≤ c.toNat ∧ c.toNat < 56320) := by
          have := (char_toNat_valid c).2
          omega
        have he : escChar c = '\\' :: 'u' :: hex4 c.toNat := by
          simp only [escChar, if_neg h1, if_neg h2, if_neg h3, if_neg h4,
            if_neg h5, if_neg h6, if_neg h7, if_neg hpr, if_pos hbmp]
        rw [he]
        simp only [List.cons_append]
        rw [parseStr_u_bmp f c.toNat _ hbmp hns, IH]
        simp [Char.ofNat_toNat]
      · have hlt := (char_toNat_valid c).1
        have hm : c.toNat - 65536 < 1048576 := by omega
        have he : escChar c = '\\' :: 'u' ::
            (hex4 (55296 + (c.toNat - 65536) / 1024) ++
              ('\\' :: 'u' :: hex4 (56320 + (c.toNat - 65536) % 1024))) := by
          simp only [escChar, if_neg h1, if_neg h2, if_neg h3, if_neg h4,
            if_neg h5, if_neg h6, if_neg h7, if_neg hpr, if_neg hbmp]
          simp [List.cons_append, List.append_assoc]
        rw [he]
        simp only [List.cons_append, List.append_assoc]
        rw [parseStr_u_sur f (c.toNat - 65536) _ hm, IH]
        have hc : 65536 + (c.toNat - 65536) = c.toNat := by omega
        rw [hc]
        simp [Char.ofNat_toNat]

/-- Two whitespace runs in a row are skipped. -/
theorem skipWs_append2 (ws1 ws2 t : List Char) (h1 : ws1.all isWsCh = true)
    (h2 : ws2.all isWsCh = true) : skipWs (ws1 ++ (ws2 ++ t)) = skipWs t := by
  rw [← List.append_assoc,
    skipWs_append _ _ (by rw [List.all_append, h1, h2]; rfl)]

/-- A leading whitespace run does not affect the value scanner. -/
theorem parseVal_skip (f : Nat) (ws s : List Char)
    (h : ws.all isWsCh = true) :
    parseVal (f + 1) (ws ++ s) = parseVal (f + 1) s := by
  simp only [parseVal, skipWs_append _ _ h]

/-- Scanner step on a `null` literal. -/
theorem parseVal_null_step (f : Nat) (r : List Char) :
    parseVal (f + 1) ('n' :: 'u' :: 'l' :: 'l' :: r) = some (.null, r) := by
  simp [parseVal, skipWs_cons_false _ _ (show isWsCh 'n' = false by decide)]

/-- Scanner step on a `true` literal. -/
theorem parseVal_true_step (f : Nat) (r : List Char) :
    parseVal (f + 1) ('t' :: 'r' :: 'u' :: 'e' :: r) = some (.bool true, r) := by
  simp [parseVal, skipWs_cons_false _ _ (show isWsCh 't' = false by decide)]

/-- Scanner step on a `false` literal. -/
theorem parseVal_false_step (f : Nat) (r : List Char) :
    parseVal (f + 1) ('f' :: 'a' :: 'l' :: 's' :: 'e' :: r) =
      some (.bool false, r) := by
  simp [parseVal, skipWs_cons_false _ _ (show isWsCh 'f' = false by decide)]

/-- Scanner step on an opening quote. -/
theorem parseVal_str_step (f : Nat) (r : List Char) :
    parseVal (f + 1) ('"' :: r) =
      (parseStr (r.length + 1) r).map (fun p => (.str p.1, p.2)) := by
  simp [parseVal, skipWs_cons_false _ _ (show isWsCh '"' = false by decide)]

/-- Scanner step on an opening bracket. -/
theorem parseVal_arr_step (f : Nat) (r : List Char) :
    parseVal (f + 1) ('[' :: r) =
      (match skipWs r with
       | ']' :: r' => some (.arr [], r')
       | _ => (parseArrItems f r).map (fun p => (.arr p.1, p.2))) := by
  simp [parseVal, skipWs_cons_false _ _ (show isWsCh '[' = false by decide)]

/-- Scanner step on an opening brace. -/
theorem parseVal_obj_step (f : Nat) (r : List Char) :
    parseVal (f + 1) (Char.ofNat 123 :: r) =
      (match skipWs r with
       | c2 :: r2 =>
           if c2 = Char.ofNat 125 then some (.obj [], r2)
           else (parseObjItems f r).map (fun p => (.obj p.1, p.2))
       | [] => none) := by
  simp [parseVal,
    skipWs_cons_false _ _ (show isWsCh (Char.ofNat 123) = false by decide)]

/-- Scanner step on a number head. -/
theorem parseVal_num_step (f : Nat) (c : Char) (r : List Char)
    (hw : isWsCh c = false) (h1 : ¬ c = 'n') (h2 : ¬ c = 't') (h3 : ¬ c = 'f')
    (h4 : ¬ c = '"') (h5 : ¬ c = '[') (h6 : ¬ c = Char.ofNat 123) :
    parseVal (f + 1) (c :: r) = parseNum (c :: r) := by
  simp [parseVal, skipWs_cons_false _ _ hw, h1, h2, h3, h4, h5, h6]

/-- The whitespace skip stops at a comma. -/
theorem skipWs_comma (r : List Char) : skipWs (',' :: r) = ',' :: r :=
  skipWs_cons_false _ _ (by decide)

/-- The whitespace skip stops at a colon. -/
theorem skipWs_colon (r : List Char) : skipWs (':' :: r) = ':' :: r :=
  skipWs_cons_false _ _ (by decide)

/-- A leading whitespace run does not affect the object-items scanner. -/
theorem parseObjItems_skip (f : Nat) (ws s : List Char)
    (h : ws.all isWsCh = true) :
    parseObjItems (f + 1) (ws ++ s) = parseObjItems (f + 1) s := by
  simp only [parseObjItems, skipWs_append _ _ h]

/-- Object-items scanner step on an opening quote: scan the key, demand a
colon, scan the value, then dispatch on comma versus closing brace. -/
theorem parseObjItems_step (f : Nat) (r : List Char) :
    parseObjItems (f + 1) ('"' :: r) =
      (do
        let (k, r1) ← parseStr (r.length + 1) r
        match skipWs r1 with
        | ':' :: r2 => do
            let (v, r3) ← parseVal f r2
            match skipWs r3 with
            | c4 :: r4 =>
                if c4 = ',' then do
                  let (kvs, r5) ← parseObjItems f r4
                  pure ((k, v) :: kvs, r5)
                else if c4 = Char.ofNat 125 then pure ([(k, v)], r4)
                else none
            | [] => none
        | _ => none) := by
  simp [parseObjItems,
    skipWs_cons_false _ _ (show isWsCh '"' = false by decide)]

/-- Unfolding of the item-list fuel measure. -/
theorem dA_cons (x : JVal) (xs : List JVal) :
    dA (x :: xs) = Nat.max (dV x) (dA xs) + 1 := by
  conv_lhs => rw [dA]

/-- The empty item list has unit fuel measure. -/
theorem dA_nil : dA ([] : List JVal) = 1 := by rw [dA]

/-- Unfolding of the key-value-list fuel measure. -/
theorem dO_cons (k : List Char) (v : JVal) (kvs : List (List Char × JVal)) :
    dO ((k, v) :: kvs) = Nat.max (dV v) (dO kvs) + 1 := by
  conv_lhs => rw [dO]

/-- The empty key-value list has unit fuel measure. -/
theorem dO_nil : dO ([] : List (List Char × JVal)) = 1 := by rw [dO]

/-- The minus sign is not whitespace and not a dispatch character. -/
theorem dash_not_special :
    isWsCh '-' = false ∧ ¬ '-' = 'n' ∧ ¬ '-' = 't' ∧ ¬ '-' = 'f' ∧
      ¬ '-' = '"' ∧ ¬ '-' = '[' ∧ ¬ '-' = Char.ofNat 123 := by
  decide

/-- The `json.loads` scanner inverts the `indent=2` printer: a printed
value embedded between a whitespace run and a non-digit tail parses back
to itself, and printed item lists parse back up to their closing
bracket or brace, given fuel at least the nesting measure. -/
theorem parse_pp (fuel : Nat) :
    (∀ lvl v ws rest, ws.all isWsCh = true → headIsDigit rest = false →
       dV v ≤ fuel →
       parseVal fuel (ws ++ ppVal lvl v ++ rest) = some (v, rest)) ∧
    (∀ lvl x xs ws tws rest, ws.all isWsCh = true → tws.all isWsCh = true →
       dA (x :: xs) ≤ fuel →
       parseArrItems fuel (ws ++ ppArrItems lvl x xs ++ tws ++ ']' :: rest) =
         some (x :: xs, rest)) ∧
    (∀ lvl kv kvs ws tws rest, ws.all isWsCh = true → tws.all isWsCh = true →
       dO (kv :: kvs) ≤ fuel →
       parseObjItems fuel
           (ws ++ ppObjItems lvl kv kvs ++ tws ++ Char.ofNat 125 :: rest) =
         some (kv :: kvs, rest)) := by
  induction fuel with
  | zero =>
      refine ⟨fun lvl v ws rest _ _ hd => absurd hd (by have := dV_pos v; omega),
        fun lvl x xs ws tws rest _ _ hd =>
          absurd hd (by have := dA_pos (x :: xs); omega),
        fun lvl kv kvs ws tws rest _ _ hd =>
          absurd hd (by have := dO_pos (kv :: kvs); omega)⟩
  | succ f IH =>
      obtain ⟨Pv, Pa, Po⟩ := IH
      refine ⟨?_, ?_, ?_⟩
      · intro lvl v ws rest hws hdig hdv
        cases v with
        | null =>
            simp only [ppVal, List.append_assoc, List.cons_append,
              List.nil_append]
            rw [parseVal_skip _ _ _ hws, parseVal_null_step]
        | bool b =>
            cases b with
            | true =>
                simp only [ppVal, List.append_assoc, List.cons_append,
                  List.nil_append]
                rw [parseVal_skip _ _ _ hws, parseVal_true_step]
            | false =>
                simp only [ppVal, List.append_assoc, List.cons_append,
                  List.nil_append]
                rw [parseVal_skip _ _ _ hws, parseVal_false_step]
        | num n =>
            rcases natChars_head n.natAbs with ⟨d, t, hnat, hd⟩
            rcases digit_char_facts d hd with
              ⟨hwd, hn1, hn2, hn3, hn4, hn5, hn6, _, _⟩
            have hpp0 : ppVal lvl (.num n) = ppInt n := by simp [ppVal]
            by_cases hneg : n < 0
            · have hpp : ppInt n = '-' :: natChars n.natAbs := by
                simp [ppInt, hneg]
              rw [List.append_assoc, hpp0, hpp, List.cons_append,
                parseVal_skip _ _ _ hws,
                parseVal_num_step f '-' _ dash_not_special.1
                  dash_not_special.2.1 dash_not_special.2.2.1
                  dash_not_special.2.2.2.1 dash_not_special.2.2.2.2.1
                  dash_not_special.2.2.2.2.2.1 dash_not_special.2.2.2.2.2.2,
                ← List.cons_append, ← hpp]
              exact parseNum_pp n rest hdig
            · have hpp : ppInt n = natChars n.natAbs := by simp [ppInt, hneg]
              rw [List.append_assoc, hpp0, hpp, hnat, List.cons_append,
                parseVal_skip _ _ _ hws,
                parseVal_num_step f d _ hwd hn1 hn2 hn3 hn4 hn5 hn6,
                ← List.cons_append, ← hnat, ← hpp]
              exact parseNum_pp n rest hdig
        | str s =>
            have hpp0 : ppVal lvl (.str s) = '"' :: (ppStrBody s ++ ['"']) := by
              simp [ppVal]
            rw [List.append_assoc, hpp0, List.cons_append,
              parseVal_skip _ _ _ hws, List.append_assoc,
              parseVal_str_step, List.singleton_append]
            rw [parseStr_pp s _ rest (by
              have := ppStrBody_length_ge s
              simp only [List.length_append, List.length_cons]
              omega)]
            rfl
        | arr xs =>
            cases xs with
            | nil =>
                have hpp0 : ppVal lvl (.arr []) = '[' :: [']'] := by
                  simp [ppVal]
                rw [List.append_assoc, hpp0, List.cons_append,
                  parseVal_skip _ _ _ hws, parseVal_arr_step,
                  List.singleton_append,
                  skipWs_cons_false _ _ (show isWsCh ']' = false by decide)]
                rfl
            | cons x xs2 =>
                have hdA2 : dA (x :: xs2) ≤ f := by
                  have hx : dV (.arr (x :: xs2)) = dA (x :: xs2) + 1 := by
                    rw [dV]
                  omega
                rcases ppArrItems_head (lvl + 1) x xs2 with
                  ⟨c0, t0, hitems, hw0, hc1, hc2⟩
                have hpp0 : ppVal lvl (.arr (x :: xs2)) =
                    '[' :: ('\n' :: (ppArrItems (lvl + 1) x xs2 ++
                      ('\n' :: (jIndent lvl ++ [']'])))) := by
                  simp [ppVal]
                rw [List.append_assoc, hpp0]
                simp only [List.append_assoc, List.cons_append,
                  List.singleton_append, List.nil_append]
                rw [parseVal_skip _ _ _ hws, parseVal_arr_step]
                have hsk : skipWs ('\n' :: (ppArrItems (lvl + 1) x xs2 ++
                    ('\n' :: (jIndent lvl ++ (']' :: rest))))) =
                    c0 :: (t0 ++ ('\n' :: (jIndent lvl ++ (']' :: rest)))) := by
                  rw [hitems]
                  rw [show ('\n' :: ((jIndent (lvl + 1) ++ c0 :: t0) ++
                      ('\n' :: (jIndent lvl ++ (']' :: rest))))) =
                      ('\n' :: jIndent (lvl + 1)) ++
                        (c0 :: (t0 ++ ('\n' :: (jIndent lvl ++
                          (']' :: rest))))) by simp]
                  rw [skipWs_append _ _ (by simp [List.all_cons, jIndent_ws, isWsCh]),
                    skipWs_cons_false _ _ hw0]
                rw [hsk]
                split
                · rename_i r2 heq
                  rw [List.cons.injEq] at heq
                  exact absurd heq.1 hc1
                · have ha := Pa (lvl + 1) x xs2 ['\n'] ('\n' :: jIndent lvl)
                    rest (by decide)
                    (by simp [List.all_cons, jIndent_ws, isWsCh]) hdA2
                  simp only [List.append_assoc, List.cons_append,
                    List.nil_append, List.singleton_append] at ha
                  rw [ha]
                  rfl
        | obj kvs =>
            cases kvs with
            | nil =>
                have hpp0 : ppVal lvl (.obj []) =
                    Char.ofNat 123 :: [Char.ofNat 125] := by
                  simp [ppVal]
                rw [List.append_assoc, hpp0, List.cons_append,
                  parseVal_skip _ _ _ hws, parseVal_obj_step,
                  List.singleton_append,
                  skipWs_cons_false _ _
                    (show isWsCh (Char.ofNat 125) = false by decide)]
                simp
            | cons kv kvs2 =>
                rcases kv with ⟨k, v⟩
                have hdO2 : dO ((k, v) :: kvs2) ≤ f := by
                  have hx : dV (.obj ((k, v) :: kvs2)) =
                      dO ((k, v) :: kvs2) + 1 := by rw [dV]
                  omega
                rcases ppObjItems_head (lvl + 1) (k, v) kvs2 with ⟨t0, hitems⟩
                have hpp0 : ppVal lvl (.obj ((k, v) :: kvs2)) =
                    Char.ofNat 123 :: ('\n' :: (ppObjItems (lvl + 1) (k, v) kvs2 ++
                      ('\n' :: (jIndent lvl ++ [Char.ofNat 125])))) := by
                  simp [ppVal]
                rw [List.append_assoc, hpp0]
                simp only [List.append_assoc, List.cons_append,
                  List.singleton_append, List.nil_append]
                rw [parseVal_skip _ _ _ hws, parseVal_obj_step]
                have hsk : skipWs ('\n' :: (ppObjItems (lvl + 1) (k, v) kvs2 ++
                    ('\n' :: (jIndent lvl ++ (Char.ofNat 125 :: rest))))) =
                    '"' :: (t0 ++ ('\n' :: (jIndent lvl ++
                      (Char.ofNat 125 :: rest)))) := by
                  rw [hitems]
                  rw [show ('\n' :: ((jIndent (lvl + 1) ++ '"' :: t0) ++
                      ('\n' :: (jIndent lvl ++ (Char.ofNat 125 :: rest))))) =
                      ('\n' :: jIndent (lvl + 1)) ++
                        ('"' :: (t0 ++ ('\n' :: (jIndent lvl ++
                          (Char.ofNat 125 :: rest))))) by simp]
                  rw [skipWs_append _ _ (by simp [List.all_cons, jIndent_ws, isWsCh]),
                    skipWs_cons_false _ _ (show isWsCh '"' = false by decide)]
                rw [hsk]
                have ho := Po (lvl + 1) (k, v) kvs2 ['\n'] ('\n' :: jIndent lvl)
                  rest (by decide)
                  (by simp [List.all_cons, jIndent_ws, isWsCh]) hdO2
                simp only [List.append_assoc, List.cons_append,
                  List.nil_append, List.singleton_append] at ho
                simp [if_neg (show ¬ ('"' : Char) = Char.ofNat 125 by decide),
                  ho]
      · intro lvl x xs ws tws rest hws htws hdA
        cases xs with
        | nil =>
            have hdV2 : dV x ≤ f := by
              have h1 := dA_cons x []
              rw [dA_nil] at h1
              have h4 : Nat.max (dV x) 1 ≤ f := by omega
              exact (Nat.max_le.mp h4).1
            have hv := Pv lvl x (ws ++ jIndent lvl) (tws ++ (']' :: rest))
              (by rw [List.all_append, hws, jIndent_ws]; rfl)
              (headIsDigit_ws_append tws ']' rest htws (by decide))
              hdV2
            simp only [ppArrItems]
            simp only [List.append_assoc, List.cons_append, List.nil_append,
              List.singleton_append] at hv ⊢
            simp only [parseArrItems]
            rw [hv]
            have hskw : skipWs (tws ++ (']' :: rest)) = ']' :: rest := by
              rw [skipWs_append _ _ htws,
                skipWs_cons_false _ _ (show isWsCh ']' = false by decide)]
            simp [hskw]
        | cons y ys =>
            have h1 := dA_cons x (y :: ys)
            have h4 : Nat.max (dV x) (dA (y :: ys)) ≤ f := by omega
            have hdV2 : dV x ≤ f := (Nat.max_le.mp h4).1
            have hdA2 : dA (y :: ys) ≤ f := (Nat.max_le.mp h4).2
            have hv := Pv lvl x (ws ++ jIndent lvl)
              (',' :: ' ' :: '\n' :: (ppArrItems lvl y ys ++
                (tws ++ (']' :: rest))))
              (by rw [List.all_append, hws, jIndent_ws]; rfl)
              (by rw [headIsDigit_cons]; decide)
              hdV2
            have ha := Pa lvl y ys [' ', '\n'] tws rest (by decide) htws hdA2
            simp only [ppArrItems]
            simp only [List.append_assoc, List.cons_append, List.nil_append,
              List.singleton_append] at hv ha ⊢
            simp only [parseArrItems]
            rw [hv]
            simp [skipWs_comma, ha]
      · intro lvl kv kvs ws tws rest hws htws hdO
        rcases kv with ⟨k, v⟩
        cases kvs with
        | nil =>
            have hdV2 : dV v ≤ f := by
              have h1 := dO_cons k v []
              rw [dO_nil] at h1
              have h4 : Nat.max (dV v) 1 ≤ f := by omega
              exact (Nat.max_le.mp h4).1
            have hv := Pv lvl v [' '] (tws ++ (Char.ofNat 125 :: rest))
              (by decide)
              (headIsDigit_ws_append tws (Char.ofNat 125) rest htws (by decide))
              hdV2
            simp only [ppObjItems]
            simp only [List.append_assoc, List.cons_append, List.nil_append,
              List.singleton_append] at hv ⊢
            rw [parseObjItems_skip _ _ _ hws,
              parseObjItems_skip _ _ _ (jIndent_ws lvl), parseObjItems_step]
            have hklen : k.length <
                (ppStrBody k ++ ('"' :: (':' :: (' ' :: (ppVal lvl v ++
                  (tws ++ (Char.ofNat 125 :: rest))))))).length + 1 := by
              have := ppStrBody_length_ge k
              simp only [List.length_append, List.length_cons]
              omega
            rw [parseStr_pp k _ _ hklen]
            have hskw : skipWs (tws ++ (Char.ofNat 125 :: rest)) =
                Char.ofNat 125 :: rest := by
              rw [skipWs_append _ _ htws,
                skipWs_cons_false _ _
                  (show isWsCh (Char.ofNat 125) = false by decide)]
            simp [skipWs_colon, hv, hskw]
        | cons kv2 kvs2 =>
            have h1 := dO_cons k v (kv2 :: kvs2)
            have h4 : Nat.max (dV v) (dO (kv2 :: kvs2)) ≤ f := by omega
            have hdV2 : dV v ≤ f := (Nat.max_le.mp h4).1
            have hdO2 : dO (kv2 :: kvs2) ≤ f := (Nat.max_le.mp h4).2
            have hv := Pv lvl v [' ']
              (',' :: ' ' :: '\n' :: (ppObjItems lvl kv2 kvs2 ++
                (tws ++ (Char.ofNat 125 :: rest))))
              (by decide) (by rw [headIsDigit_cons]; decide) hdV2
            have ho := Po lvl kv2 kvs2 [' ', '\n'] tws rest (by decide) htws
              hdO2
            simp only [ppObjItems]
            simp only [List.append_assoc, List.cons_append, List.nil_append,
              List.singleton_append] at hv ho ⊢
            rw [parseObjItems_skip _ _ _ hws,
              parseObjItems_skip _ _ _ (jIndent_ws lvl), parseObjItems_step]
            have hklen : k.length <
                (ppStrBody k ++ ('"' :: (':' :: (' ' :: (ppVal lvl v ++
                  (',' :: (' ' :: ('\n' :: (ppObjItems lvl kv2 kvs2 ++
                    (tws ++ (Char.ofNat 125 :: rest))))))))))).length + 1 := by
              have := ppStrBody_length_ge k
              simp only [List.length_append, List.length_cons]
              omega
            rw [parseStr_pp k _ _ hklen]
            simp [skipWs_colon, hv, skipWs_comma, ho]

/-- The fuel measure of a value is bounded by its printed length (item
lists: printed length plus one), so `len + 1` fuel always suffices. -/
theorem dV_le_len (bound : Nat) :
    (∀ v lvl, sizeOf v ≤ bound → dV v ≤ (ppVal lvl v).length) ∧
    (∀ x xs lvl, sizeOf x + sizeOf xs ≤ bound →
       dA (x :: xs) ≤ (ppArrItems lvl x xs).length + 1) ∧
    (∀ kv kvs lvl, sizeOf kv + sizeOf kvs ≤ bound →
       dO (kv :: kvs) ≤ (ppObjItems lvl kv kvs).length + 1) := by
  induction bound with
  | zero =>
      refine ⟨fun v lvl h => absurd h ?_, fun x xs lvl h => absurd h ?_,
        fun kv kvs lvl h => absurd h ?_⟩
      · have : 0 < sizeOf v := by cases v <;> simp <;> omega
        omega
      · have : 0 < sizeOf x := by cases x <;> simp <;> omega
        omega
      · have : 0 < sizeOf kv := by rcases kv with ⟨a, b⟩; simp
        omega
  | succ b IH =>
      obtain ⟨IHv, IHa, IHo⟩ := IH
      refine ⟨?_, ?_, ?_⟩
      · intro v lvl h
        cases v with
        | null => simp [dV, ppVal]
        | bool bb => cases bb <;> simp [dV, ppVal]
        | num n =>
            rcases natChars_head n.natAbs with ⟨d, t, hnat, _⟩
            simp only [dV, ppVal]
            by_cases hneg : n < 0 <;> simp [ppInt, hneg, hnat]
        | str s =>
            simp only [dV, ppVal, List.length_cons, List.length_append]
            omega
        | arr xs =>
            cases xs with
            | nil => simp [dV, dA_nil, ppVal]
            | cons x xs2 =>
                simp only [JVal.arr.sizeOf_spec, List.cons.sizeOf_spec] at h
                have hsz : sizeOf x + sizeOf xs2 ≤ b := by omega
                have ha := IHa x xs2 (lvl + 1) hsz
                have hx : dV (.arr (x :: xs2)) = dA (x :: xs2) + 1 := by
                  rw [dV]
                rw [hx]
                simp only [ppVal, List.length_cons, List.length_append,
                  List.length_nil]
                omega
        | obj kvs =>
            cases kvs with
            | nil => simp [dV, dO_nil, ppVal]
            | cons kv kvs2 =>
                rcases kv with ⟨k2, v2⟩
                simp only [JVal.obj.sizeOf_spec, List.cons.sizeOf_spec,
                  Prod.mk.sizeOf_spec] at h
                have hsz : sizeOf (k2, v2) + sizeOf kvs2 ≤ b := by
                  simp only [Prod.mk.sizeOf_spec]
                  omega
                have ho := IHo (k2, v2) kvs2 (lvl + 1) hsz
                have hx : dV (.obj ((k2, v2) :: kvs2)) =
                    dO ((k2, v2) :: kvs2) + 1 := by rw [dV]
                rw [hx]
                simp only [ppVal, List.length_cons, List.length_append,
                  List.length_nil]
                omega
      · intro x xs lvl h
        cases xs with
        | nil =>
            have hsz : sizeOf x ≤ b := by
              simp only [List.nil.sizeOf_spec] at h
              omega
            have hv := IHv x lvl hsz
            have hp := dV_pos x
            rw [dA_cons, dA_nil]
            simp only [ppArrItems, List.length_append]
            have hm : Nat.max (dV x) 1 ≤ (ppVal lvl x).length :=
              Nat.max_le.mpr ⟨hv, le_trans hp hv⟩
            omega
        | cons y ys =>
            simp only [List.cons.sizeOf_spec] at h
            have hsz1 : sizeOf x ≤ b := by omega
            have hsz2 : sizeOf y + sizeOf ys ≤ b := by omega
            have hv := IHv x lvl hsz1
            have ha := IHa y ys lvl hsz2
            rw [dA_cons]
            simp only [ppArrItems, List.length_append, List.length_cons]
            have hm : Nat.max (dV x) (dA (y :: ys)) ≤
                (ppVal lvl x).length + (ppArrItems lvl y ys).length + 3 :=
              Nat.max_le.mpr ⟨by omega, by omega⟩
            omega
      · intro kv kvs lvl h
        rcases kv with ⟨k2, v2⟩
        cases kvs with
        | nil =>
            have hsz : sizeOf v2 ≤ b := by
              simp only [Prod.mk.sizeOf_spec, List.nil.sizeOf_spec] at h
              omega
            have hv := IHv v2 lvl hsz
            have hp := dV_pos v2
            rw [dO_cons, dO_nil]
            simp only [ppObjItems, List.length_append, List.length_cons]
            have hm : Nat.max (dV v2) 1 ≤ (ppVal lvl v2).length :=
              Nat.max_le.mpr ⟨hv, le_trans hp hv⟩
            omega
        | cons kv2 kvs2 =>
            simp only [Prod.mk.sizeOf_spec, List.cons.sizeOf_spec] at h
            have hsz1 : sizeOf v2 ≤ b := by omega
            have hsz2 : sizeOf kv2 + sizeOf kvs2 ≤ b := by omega
            have hv := IHv v2 lvl hsz1
            have ho := IHo kv2 kvs2 lvl hsz2
            rw [dO_cons]
            simp only [ppObjItems, List.length_append, List.length_cons]
            have hm : Nat.max (dV v2) (dO (kv2 :: kvs2)) ≤
                (ppVal lvl v2).length + (ppObjItems lvl kv2 kvs2).length + 3 :=
              Nat.max_le.mpr ⟨by omega, by omega⟩
            omega

/-- `raw_to_object` inverts `to_raw`: the serializer/parser round-trip of
`DBPrefs` (backend.py lines 79-85) is the identity on embedded JSON
values. -/
theorem raw_to_object_to_raw (v : JVal) : raw_to_object (to_raw v) = some v := by
  have hd : dV v ≤ (ppVal 0 v).length + 1 :=
    le_trans ((dV_le_len (sizeOf v)).1 v 0 (Nat.le_refl _)) (Nat.le_succ _)
  have hp := (parse_pp ((ppVal 0 v).length + 1)).1 0 v [] [] rfl rfl hd
  simp only [List.nil_append, List.append_nil] at hp
  simp only [raw_to_object, to_raw]
  rw [hp]
  rfl

/-- Looking up `k` in the mirror rebuilt from a table whose `k` row was
just upserted with the serialization of `v` yields `v` back: rows before
the upserted one keep keys different from `k`, whether or not they
parse. -/
theorem restart_lookup (t : List (List Char × List Char)) (k : List Char)
    (v : JVal) :
    dictLookup ((dictUpsert t k (to_raw v)).filterMap
      (fun p => (raw_to_object p.2).map (fun w => (p.1, w)))) k = some v := by
  induction t with
  | nil =>
      simp [dictUpsert, List.filterMap_cons, raw_to_object_to_raw v,
        dictLookup, List.find?_cons]
  | cons p rest ih =>
      rcases p with ⟨k2, r2⟩
      by_cases hk : k2 = k
      · simp only [dictUpsert, if_pos hk]
        simp [List.filterMap_cons, raw_to_object_to_raw v, dictLookup,
          List.find?_cons]
      · simp only [dictUpsert, if_neg hk]
        rw [List.filterMap_cons]
        cases hro : raw_to_object r2 with
        | none => simpa using ih
        | some w =>
            simp only [Option.map_some']
            simp only [dictLookup, List.find?_cons, decide_eq_false hk]
            exact ih

/-- **C6.** For every JSON-representable value `v`, a completed
`DBPrefs.__setitem__` (backend.py lines 100-106) followed by a `get`
returns a value deep-equal to `v`, both immediately (the dict mirror) and
across a process restart, where `DBPrefs.__init__` (lines 66-77) re-reads
the `preferences` table and applies `raw_to_object` to the stored
`to_raw` serialization. -/
theorem dbprefs_set_get_roundtrip (st : PrefsState) (k : List Char)
    (v : JVal) :
    dbprefs_get ((dbprefs_setitem false .completed st k v).1) k = some v ∧
    dbprefs_get (dbprefs_restart
        ((dbprefs_setitem false .completed st k v).1).table) k = some v := by
  constructor
  · simp [dbprefs_setitem, dbprefs_get, dictLookup_upsert_self]
  · simp only [dbprefs_setitem, if_neg (by decide : ¬ false = true)]
    simp only [dbprefs_get, dbprefs_restart]
    exact restart_lookup st.table k v
